import Mathlib

/-!
# Verification of the go-workflow scheduling core

Shallow embedding of `src/workflow.go` (package `flow`): a DAG workflow engine
with a step tree (nested/composite steps), a per-root state table, a three-phase
partition (Init/Main/Defer), a mark-and-sweep preflight cycle detector, and a
tick scheduler.  Types that the source references but that live outside the two
given files (`StepTree`, `State`, `StepStatus`, `Phase`, the error sentinels,
`DefaultCondition`, `DefaultIsCanceled`) are modelled from the specification and
are marked as such in their doc comments.

Go maps are modelled as association lists (`AList` below), Go map/set mutation
as pure functional update, goroutine-visible status writes as explicit
transitions (`ExecStep`), and Go panics as the `error` side of an `Except`.
-/

namespace GoFlow

/-- Association list standing in for a Go `map`: lookup takes the first entry
with a matching key, insertion replaces in place or appends. -/
abbrev AList (κ α : Type) := List (κ × α)

/-- Lookup, modelling Go `m[k]` (returning `none` for a missing key). -/
def findA {κ α : Type} [DecidableEq κ] : AList κ α → κ → Option α
  | [], _ => none
  | (k', v) :: rest, k => if k' = k then some v else findA rest k

/-- Insert-or-replace, modelling Go `m[k] = v`. -/
def insertA {κ α : Type} [DecidableEq κ] : AList κ α → κ → α → AList κ α
  | [], k, v => [(k, v)]
  | (k', v') :: rest, k, v =>
    if k' = k then (k', v) :: rest else (k', v') :: insertA rest k v

/-- In-place update of the value at a key (no-op for a missing key),
modelling a write through a Go pointer stored in a map. -/
def modifyA {κ α : Type} [DecidableEq κ] : AList κ α → κ → (α → α) → AList κ α
  | [], _, _ => []
  | (k', v) :: rest, k, f =>
    if k' = k then (k', f v) :: modifyA rest k f else (k', v) :: modifyA rest k f

/-- Key removal, modelling Go `delete(m, k)`. -/
def eraseA {κ α : Type} [DecidableEq κ] (m : AList κ α) (k : κ) : AList κ α :=
  m.filter (fun kv => kv.1 ≠ k)

theorem findA_insertA {κ α : Type} [DecidableEq κ] (m : AList κ α) (k j : κ) (v : α) :
    findA (insertA m k v) j = if k = j then some v else findA m j := by
  induction m with
  | nil => simp [insertA, findA]
  | cons hd tl ih =>
    obtain ⟨k', v'⟩ := hd
    by_cases h1 : k' = k
    · subst h1
      by_cases h2 : k' = j <;> simp [insertA, findA, h2]
    · by_cases h2 : k' = j
      · subst h2
        have : ¬ k = k' := fun h => h1 h.symm
        simp [insertA, findA, h1, this]
      · simp [insertA, findA, h1, h2, ih]

theorem findA_modifyA {κ α : Type} [DecidableEq κ] (m : AList κ α) (k j : κ) (f : α → α) :
    findA (modifyA m k f) j = if k = j then (findA m j).map f else findA m j := by
  induction m with
  | nil => simp [modifyA, findA]
  | cons hd tl ih =>
    obtain ⟨k', v'⟩ := hd
    by_cases h1 : k' = k
    · subst h1
      by_cases h2 : k' = j
      · subst h2; simp [modifyA, findA, ih]
      · simp [modifyA, findA, h2, ih]
    · by_cases h2 : k' = j
      · subst h2
        have h3 : ¬ k = k' := fun h => h1 h.symm
        simp [modifyA, findA, h1, h3]
      · simp [modifyA, findA, h1, h2, ih]

theorem length_modifyA {κ α : Type} [DecidableEq κ] (m : AList κ α) (k : κ) (f : α → α) :
    (modifyA m k f).length = m.length := by
  induction m with
  | nil => rfl
  | cons hd tl ih =>
    obtain ⟨k', v'⟩ := hd
    by_cases h1 : k' = k <;> simp [modifyA, h1, ih]

theorem isEmpty_modifyA {κ α : Type} [DecidableEq κ] (m : AList κ α) (k : κ) (f : α → α) :
    (modifyA m k f).isEmpty = m.isEmpty := by
  cases m with
  | nil => rfl
  | cons hd tl =>
    obtain ⟨k', v'⟩ := hd
    by_cases h1 : k' = k <;> simp [modifyA, h1, List.isEmpty]

theorem findA_some_mem {κ α : Type} [DecidableEq κ] {m : AList κ α} {k : κ} {v : α}
    (h : findA m k = some v) : (k, v) ∈ m := by
  induction m with
  | nil => simp [findA] at h
  | cons hd tl ih =>
    obtain ⟨k', v'⟩ := hd
    by_cases h1 : k' = k
    · subst h1
      simp [findA] at h
      simp [h]
    · simp [findA, h1] at h
      exact List.mem_cons_of_mem _ (ih h)

/-- The steps of the workflow.  A step is identified by value identity
(`Steper` in the source is an interface; identity is modelled by the payload).
A `comp` step is a composite step exposing descendants through the unwrap
capability; a `base` step is primitive. -/
inductive Steper where
  | base : Nat → Steper
  | comp : Nat → List Steper → Steper

mutual

/-- Boolean structural equality on steps (value identity of the Go interface). -/
def steq : Steper → Steper → Bool
  | .base a, .base b => a == b
  | .comp a xs, .comp b ys => a == b && steqList xs ys
  | _, _ => false

/-- Boolean structural equality on lists of steps. -/
def steqList : List Steper → List Steper → Bool
  | [], [] => true
  | x :: xs, y :: ys => steq x y && steqList xs ys
  | _, _ => false

end

mutual

theorem steq_iff : ∀ a b : Steper, steq a b = true ↔ a = b
  | .base n, .base m => by simp [steq]
  | .base n, .comp m ys => by simp [steq]
  | .comp n xs, .base m => by simp [steq]
  | .comp n xs, .comp m ys => by
    simp only [steq, Bool.and_eq_true, beq_iff_eq]
    constructor
    · rintro ⟨h1, h2⟩
      rw [h1, (steqList_iff xs ys).1 h2]
    · rintro h
      injection h with h1 h2
      exact ⟨h1, (steqList_iff xs ys).2 h2⟩

theorem steqList_iff : ∀ xs ys : List Steper, steqList xs ys = true ↔ xs = ys
  | [], [] => by simp [steqList]
  | [], y :: ys => by simp [steqList]
  | x :: xs, [] => by simp [steqList]
  | x :: xs, y :: ys => by
    simp only [steqList, Bool.and_eq_true]
    constructor
    · rintro ⟨h1, h2⟩
      rw [(steq_iff x y).1 h1, (steqList_iff xs ys).1 h2]
    · rintro h
      injection h with h1 h2
      exact ⟨(steq_iff x y).2 h1, (steqList_iff xs ys).2 h2⟩

end

instance : DecidableEq Steper := fun a b => decidable_of_iff (steq a b = true) (steq_iff a b)

/-- Modelled from the spec (the `StepStatus` type is declared outside `src/`):
`Pending` (initial), `Running`, the four terminal statuses, and the reserved
internal preflight marker (`const scanned StepStatus = "scanned"` in the
source, a private status). -/
inductive StepStatus where
  | Pending
  | Running
  | Succeeded
  | Failed
  | Canceled
  | Skipped
  | scanned
deriving DecidableEq

/-- Modelled from the spec: `Terminal = any of {Succeeded, Failed, Canceled, Skipped}`. -/
def StepStatus.IsTerminated : StepStatus → Bool
  | .Succeeded | .Failed | .Canceled | .Skipped => true
  | _ => false

/-- Modelled from the spec (error values are declared outside `src/`):
the error sentinels and wrappers the scheduling core distinguishes.
`canceled`/`deadlineExceeded` stand for the standard library cancellation
sentinels, `skip` for `ErrSkip`, `panicWrap`/`inputWrap` for the `ErrPanic`
and `ErrInput` wrappers, and `msg` for any other error (e.g. a stringified
panic value, `fmt.Errorf`). -/
inductive Err where
  | canceled
  | deadlineExceeded
  | skip
  | panicWrap : Err → Err
  | inputWrap : Err → Err
  | msg : String → Err
deriving DecidableEq

/-- Modelled from the spec: `StatusError` is the pair `(StepStatus, error?)`
reported to downstreams. -/
structure StatusError where
  status : StepStatus
  err : Option Err
deriving DecidableEq

/-- Modelled from the spec: the ordered phases; `PhaseUnknown` is the zero value. -/
inductive Phase where
  | PhaseUnknown
  | PhaseInit
  | PhaseMain
  | PhaseDefer
deriving DecidableEq

/-- Modelled from the spec: `WorkflowPhases` is the total order the scheduler
walks: `[Init, Main, Defer]`. -/
def WorkflowPhases : List Phase := [.PhaseInit, .PhaseMain, .PhaseDefer]

/-- A step gating condition: a function of the upstream status map deciding the
next status (the `context` argument of the Go `Condition` is dropped; no claim
involves context cancellation inside conditions). -/
abbrev Cond := AList Steper StatusError → StepStatus

/-- Modelled from the spec: the mergeable per-step configuration.  Only the
fields the verified claims touch are carried: the upstream set and the gating
condition (timeout / retry / input callbacks are handled abstractly by the
execution relation). -/
structure StepConfig where
  upstreams : List Steper
  condition : Option Cond

/-- Modelled from the spec: per-root-step record (status, terminal error,
merged config). -/
structure State where
  status : StepStatus
  err : Option Err
  config : StepConfig

/-- A fresh `new(State)`: zero values. -/
def State.new : State := ⟨.Pending, none, ⟨[], none⟩⟩

/-- Add a step to a Go `Set[Steper]` (modelled as a duplicate-free list). -/
def listAddSet (l : List Steper) (s : Steper) : List Steper :=
  if l.contains s then l else l ++ [s]

/-- Modelled from the spec: `State.AddUpstream` records a dependency edge
(set insertion, so adding the same edge twice yields one edge). -/
def State.addUpstream (st : State) (up : Steper) : State :=
  { st with config := { st.config with upstreams := listAddSet st.config.upstreams up } }

/-- Modelled from the spec: `State.MergeConfig` merges an incoming config into
the state's config: upstream sets are united, an incoming condition overrides. -/
def State.mergeConfig (st : State) (cfg : StepConfig) : State :=
  { st with config :=
    { upstreams := cfg.upstreams.foldl listAddSet st.config.upstreams
      condition := match cfg.condition with
        | some c => some c
        | none => st.config.condition } }

/-- The `Workflow` struct of `src/workflow.go`.  `tree` maps every known step
to its immediate container (itself for a root), `state` holds the per-root
states, `steps` the phase buckets.  `running` models the `isRunning` mutex
being held, `dontPanic` the `DontPanic` flag.  The channels, wait-group, clock
and notifiers are scheduling machinery modelled by the `ExecStep` relation. -/
structure Workflow where
  tree : AList Steper Steper
  state : AList Steper State
  steps : AList Phase (List Steper)
  dontPanic : Bool
  running : Bool

/-- `new(Workflow)`: all maps nil, flags unset. -/
def Workflow.new : Workflow := ⟨[], [], [], false, false⟩

/-- `func (w *Workflow) empty() bool` (src line 149):
`len(w.tree) == 0 || len(w.state) == 0 || len(w.steps) == 0`
(the last is the number of phase buckets). -/
def Workflow.empty (w : Workflow) : Bool :=
  w.tree.isEmpty || w.state.isEmpty || w.steps.isEmpty

/-- The bucket of a phase, `w.steps[phase]` (empty for a missing bucket). -/
def Workflow.bucket (w : Workflow) (p : Phase) : List Steper :=
  (findA w.steps p).getD []

/-- Whether `s` maps to itself in the tree, `StepTree.IsRoot`
(modelled from the spec: `isRoot(step)` is true iff the tree maps step to itself). -/
def isRootB (t : AList Steper Steper) (s : Steper) : Bool :=
  findA t s = some s

/-- Fuelled climb to the root of the step tree.  Modelled from the spec:
`rootOf(step)` is the O(depth) climb to the top; a step absent from the tree is
its own root.  The fuel caps the walk on (unreachable) cyclic trees. -/
def climbs (t : AList Steper Steper) : Nat → Steper → Steper
  | 0, s => s
  | f + 1, s =>
    match findA t s with
    | none => s
    | some p => if p = s then s else climbs t f p

/-- `StepTree.RootOf` with fuel `|tree|` (enough for any acyclic tree). -/
def rootOfT (t : AList Steper Steper) (s : Steper) : Steper :=
  climbs t t.length s

/-- `func (w *Workflow) RootOf(step Steper) Steper` (src lines 165-170); on an
empty workflow the source returns nil, modelled by returning the step itself
(no claim consults `RootOf` on an empty workflow). -/
def Workflow.RootOf (w : Workflow) (s : Steper) : Steper :=
  rootOfT w.tree s

/-- The key of `w.state` that `StateOf` resolves a step to (src lines 174-192):
`none` when the source returns nil; a root resolves to itself; a nested step
resolves to the root of its immediate container.  The nested-workflow
capability probe of the source never fires here because the modelled `Steper`
values are plain (non-workflow) steps. -/
def Workflow.stateKeyOf (w : Workflow) (s : Steper) : Option Steper :=
  if w.empty then none
  else
    match findA w.tree s with
    | none => none
    | some anc => if anc = s then some s else some (rootOfT w.tree anc)

/-- `func (w *Workflow) StateOf(step Steper) *State` (src lines 174-192). -/
def Workflow.StateOf (w : Workflow) (s : Steper) : Option State :=
  (w.stateKeyOf s).bind (findA w.state ·)

/-- The status a step reads through `StateOf` (`GetStatus`); a nil state reads
as the zero status `Pending`. -/
def Workflow.statusOf (w : Workflow) (s : Steper) : StepStatus :=
  match w.StateOf s with
  | some st => st.status
  | none => .Pending

/-- The status stored at a key of the state table. -/
def statusAtKey (w : Workflow) (k : Steper) : StepStatus :=
  match findA w.state k with
  | some st => st.status
  | none => .Pending

/-- `GetStatusError` of a possibly-nil state (zero value for nil). -/
def statusErrOfState : Option State → StatusError
  | some st => ⟨st.status, st.err⟩
  | none => ⟨.Pending, none⟩

/-- The upstream list stored on a (possibly nil) state (`State.Upstreams`). -/
def upstreamsOfState : Option State → List Steper
  | some st => st.config.upstreams
  | none => []

/-- `func (w *Workflow) UpstreamOf(step Steper) map[Steper]StatusError`
(src lines 212-229): resolve the step to its root; for every phase bucket
containing the root, map each recorded upstream through `RootOf` and pair it
with its current status. -/
def Workflow.UpstreamOf (w : Workflow) (s : Steper) : AList Steper StatusError :=
  if w.empty then []
  else
    let root := rootOfT w.tree s
    WorkflowPhases.foldl (fun rv p =>
      if (w.bucket p).contains root then
        (upstreamsOfState (w.StateOf root)).foldl (fun rv up =>
          insertA rv (rootOfT w.tree up) (statusErrOfState (w.StateOf (rootOfT w.tree up)))) rv
      else rv) []

/-- `func (w *Workflow) DownstreamOf(step Steper) map[Steper]StatusError`
(src lines 233-249): the source takes `root := w.tree[step]` (the immediate
container, nil for an unknown step — then nothing matches, modelled by
returning the empty map) and collects every bucket member one of whose
upstreams resolves to that container. -/
def Workflow.DownstreamOf (w : Workflow) (s : Steper) : AList Steper StatusError :=
  if w.empty then []
  else
    match findA w.tree s with
    | none => []
    | some root =>
      WorkflowPhases.foldl (fun rv p =>
        (w.bucket p).foldl (fun rv down =>
          (upstreamsOfState (w.StateOf down)).foldl (fun rv up =>
            if rootOfT w.tree up = root then
              insertA rv down (statusErrOfState (w.StateOf down))
            else rv) rv) rv) []

/-- `func (w *Workflow) IsPhaseTerminated(phase Phase) bool` (src lines 260-270). -/
def Workflow.IsPhaseTerminated (w : Workflow) (p : Phase) : Bool :=
  w.empty || (w.bucket p).all (fun s => (w.statusOf s).IsTerminated)

/-- `func (w *Workflow) IsTerminated() bool` (src lines 252-259). -/
def Workflow.IsTerminated (w : Workflow) : Bool :=
  WorkflowPhases.all (fun p => w.IsPhaseTerminated p)

/-- The composite-unwrap capability: the direct children a step exposes. -/
def childrenOf : Steper → List Steper
  | .base _ => []
  | .comp _ cs => cs

mutual

/-- The (descendant, immediate parent) pairs of a step's whole subtree, in
pre-order. -/
def parentPairs : Steper → List (Steper × Steper)
  | .base _ => []
  | .comp n cs => pairsList (.comp n cs) cs

/-- Helper of `parentPairs`: pairs contributed by a list of children of
`parent`. -/
def pairsList (parent : Steper) : List Steper → List (Steper × Steper)
  | [] => []
  | c :: rest => (c, parent) :: (parentPairs c ++ pairsList parent rest)

end

/-- All proper descendants of a step (the keys of `parentPairs`). -/
def properDescendants (s : Steper) : List Steper :=
  (parentPairs s).map (fun kv => kv.1)

/-- A step together with its proper descendants. -/
def subtreeList (s : Steper) : List Steper :=
  s :: properDescendants s

mutual

/-- Number of nodes in a step's subtree. -/
def weight : Steper → Nat
  | .base _ => 1
  | .comp _ cs => 1 + weightList cs

/-- Total number of nodes in a list of subtrees. -/
def weightList : List Steper → Nat
  | [] => 0
  | c :: rest => weight c + weightList rest

end

/-- Modelled from the spec: `StepTree.Add` registers `step` and recursively
every descendant it exposes through the unwrap capability (each descendant
mapped to its immediate container, `step` mapped to itself), and returns the
previously-registered roots that have now become descendants of `step`. -/
def treeAdd (t : AList Steper Steper) (step : Steper) :
    AList Steper Steper × List Steper :=
  let olds := (properDescendants step).filter (fun d => isRootB t d)
  let t1 := (parentPairs step).foldl (fun acc kv => insertA acc kv.1 kv.2)
    (insertA t step step)
  (t1, olds)

/-- Write through the pointer returned by `StateOf` (no-op when nil): the
mutation target is the state-table entry `stateKeyOf` resolves to. -/
def updateState (w : Workflow) (s : Steper) (f : State → State) : Workflow :=
  match w.stateKeyOf s with
  | some k => { w with state := modifyA w.state k f }
  | none => w

/-- Add a step to a phase bucket (`w.steps[phase].Add(step)`), creating the
bucket as `PhaseAdd` does. -/
def bucketAdd (w : Workflow) (p : Phase) (s : Steper) : Workflow :=
  { w with steps := insertA w.steps p (listAddSet (w.bucket p) s) }

/-- The bucket sweep of `addStep` (src lines 96-101): in every phase bucket
containing the demoted old root, add the new root and delete the old. -/
def bucketsReplace (w : Workflow) (newRoot old : Steper) : Workflow :=
  { w with steps := w.steps.map (fun pb =>
      if pb.2.contains old then
        (pb.1, (listAddSet pb.2 newRoot).filter (fun x => x ≠ old))
      else pb) }

/-- The migration body of `addStep` (src lines 93-102) for one demoted old
root: merge its config into the new root's state, delete its state entry, and
replace it in every phase bucket.  (A missing old state would be a nil
dereference in the source; modelled as skipping the merge.) -/
def migrate (w : Workflow) (newRoot old : Steper) : Workflow :=
  let w1 :=
    match findA w.state old with
    | some stOld => { w with state := modifyA w.state newRoot (fun st => st.mergeConfig stOld.config) }
    | none => w
  let w2 := { w1 with state := eraseA w1.state old }
  bucketsReplace w2 newRoot old

/-- `addStep` with a nil config (src lines 80-103): add to the bucket; if the
step has no resolvable state yet it becomes a new root — create its state, add
its subtree to the tree, and migrate every demoted old root. -/
def addStepCore (w : Workflow) (phase : Phase) (step : Steper) : Workflow :=
  let w0 := bucketAdd w phase step
  if (w0.StateOf step).isSome then w0
  else
    let w1 := { w0 with state := insertA w0.state step State.new }
    let pr := treeAdd w1.tree step
    let w2 := { w1 with tree := pr.1 }
    pr.2.foldl (fun acc old => migrate acc step old) w2

/-- The ancestor walk of `setUpstream` (src lines 127-145): starting from
`w.tree[step]`, climb until a root; the nested-workflow capability probe never
fires for the plain steps modelled here.  Returns `none` when the walk falls
off the tree (the source returns without recording the edge). -/
def setUpstreamClimb (t : AList Steper Steper) : Nat → Steper → Option Steper
  | 0, anc => some anc
  | f + 1, anc =>
    if isRootB t anc then some anc
    else
      match findA t anc with
      | none => none
      | some p => setUpstreamClimb t f p

/-- `func (w *Workflow) setUpstream(phase Phase, step, up Steper)`
(src lines 115-147). -/
def setUpstream (w : Workflow) (phase : Phase) (step up : Steper) : Workflow :=
  let w0 := addStepCore w phase up
  if (w0.StateOf up).isNone then
    updateState w0 (w0.RootOf step) (fun st => st.addUpstream up)
  else
    match findA w0.tree step with
    | none => w0
    | some anc =>
      match setUpstreamClimb w0.tree w0.tree.length anc with
      | none => w0
      | some a => updateState w0 a (fun st => st.addUpstream up)

/-- `func (w *Workflow) addStep(phase Phase, step Steper, config *StepConfig)`
(src lines 80-112), including the map initialization `PhaseAdd` performs. -/
def Workflow.addStep (w : Workflow) (phase : Phase) (step : Steper)
    (config : Option StepConfig) : Workflow :=
  let w1 := addStepCore w phase step
  match config with
  | none => w1
  | some cfg =>
    let w2 := cfg.upstreams.foldl (fun acc up => setUpstream acc phase step up) w1
    updateState w2 step (fun st => st.mergeConfig { cfg with upstreams := [] })

/-- Modelled from the spec (error values are declared outside `src/`): the
workflow-level error sentinels `Do` and `preflight` surface.
`unexpectInit` carries the offending steps and statuses, `cycleDep` the
offending steps each with its not-yet-scanned upstream edges. -/
inductive WError where
  | workflowIsRunning
  | workflowHasRun
  | unexpectInit : AList Steper StepStatus → WError
  | cycleDep : AList Steper (List Steper) → WError
deriving DecidableEq

/-- Modelled from the spec: Go `errors.Is` on the workflow errors.  The spec
promises that after a completed run, subsequent attempts return
`ErrWorkflowHasRun`; the source reaches that point through `preflight`'s
"unexpected init status" error, so `ErrUnexpectStepInitStatus` unwraps to
`ErrWorkflowHasRun` (the repository's own test asserts exactly this
`errors.Is` relationship). -/
def errorIs : WError → WError → Bool
  | .workflowIsRunning, .workflowIsRunning => true
  | .workflowHasRun, .workflowHasRun => true
  | .unexpectInit m, .unexpectInit m' => m = m'
  | .unexpectInit _, .workflowHasRun => true
  | .cycleDep m, .cycleDep m' => m = m'
  | _, _ => false

/-- `func isAllUpstreamScanned(ups map[Steper]StatusError) bool`
(src lines 317-324). -/
def isAllUpstreamScanned (ups : AList Steper StatusError) : Bool :=
  ups.all (fun kv => kv.2.status = .scanned)

/-- `func isAnyUpstreamNotTerminated(ups map[Steper]StatusError) bool`
(src lines 325-332). -/
def isAnyUpstreamNotTerminated (ups : AList Steper StatusError) : Bool :=
  ups.any (fun kv => ! kv.2.status.IsTerminated)

/-- Set the status stored at a state-table key (`state.SetStatus` through the
entry's pointer). -/
def setStatusAtKey (w : Workflow) (k : Steper) (v : StepStatus) : Workflow :=
  { w with state := modifyA w.state k (fun st => { st with status := v }) }

/-- One pass of the preflight scan loop (src lines 347-356), iterating the
state-table keys: mark a not-yet-scanned step `scanned` when all its upstreams
are scanned.  Returns the new workflow and whether any new step was marked. -/
def scanPass : Workflow → List Steper → Workflow × Bool
  | w, [] => (w, false)
  | w, k :: rest =>
    match findA w.state k with
    | none => scanPass w rest
    | some st =>
      if st.status = .scanned then scanPass w rest
      else if isAllUpstreamScanned (w.UpstreamOf k) then
        let pr := scanPass (setStatusAtKey w k .scanned) rest
        (pr.1, true)
      else scanPass w rest

/-- The preflight scan fixpoint loop (src lines 346-360), fuelled: the source
loops until a pass marks nothing new, which takes at most `|state| + 1`
passes since every continuing pass marks at least one step. -/
def scanLoop : Nat → Workflow → Workflow
  | 0, w => w
  | f + 1, w =>
    let pr := scanPass w (w.state.map (fun kv => kv.1))
    if pr.2 then scanLoop f pr.1 else pr.1

/-- The final reset of preflight (src lines 377-380): set every state's status
back to `Pending`. -/
def resetPending (w : Workflow) : Workflow :=
  { w with state := w.state.map (fun kv => (kv.1, { kv.2 with status := .Pending })) }

/-- The assertion loop of preflight (src lines 335-340): the steps whose
status is not `Pending`, with their statuses. -/
def pendingOffenders (w : Workflow) : AList Steper StepStatus :=
  w.state.foldr (fun kv acc =>
    if kv.2.status ≠ .Pending then (kv.1, kv.2.status) :: acc else acc) []

/-- The cycle-collection loop of preflight (src lines 363-373): every step left
unscanned, with its not-yet-scanned upstream edges. -/
def cycleEntries (w : Workflow) : AList Steper (List Steper) :=
  w.state.foldr (fun kv acc =>
    if kv.2.status = .scanned then acc
    else
      let bad := (w.UpstreamOf kv.1).foldr (fun use acc2 =>
        if use.2.status ≠ .scanned then use.1 :: acc2 else acc2) ([] : List Steper)
      if bad ≠ [] then (kv.1, bad) :: acc else acc) []

/-- `func (w *Workflow) preflight() error` (src lines 333-382), returning the
error together with the (mutated) workflow: assert every status is `Pending`;
run the mark-and-sweep scan; report any step left unscanned together with its
unscanned upstream edges; on success reset all marks to `Pending`. -/
def Workflow.preflight (w : Workflow) : Option WError × Workflow :=
  if pendingOffenders w ≠ [] then (some (.unexpectInit (pendingOffenders w)), w)
  else
    let w1 := scanLoop (w.state.length + 1) w
    if cycleEntries w1 ≠ [] then (some (.cycleDep (cycleEntries w1)), w1)
    else (none, resetPending w1)

/-- Modelled from the spec: `DefaultCondition` (declared outside `src/`) —
permit running iff every upstream `Succeeded`, otherwise yield `Canceled`. -/
def DefaultCondition : Cond := fun ups =>
  if ups.all (fun kv => kv.2.status = .Succeeded) then .Running else .Canceled

/-- Set status through `StateOf` resolution (`state.SetStatus` in `tick`). -/
def setStatusOf (w : Workflow) (s : Steper) (v : StepStatus) : Workflow :=
  match w.stateKeyOf s with
  | some k => setStatusAtKey w k v
  | none => w

/-- The per-step body of the tick loop (src lines 399-443): skip unless the
step is `Pending` with every upstream terminated; let the condition (default if
unset) decide — a terminal result is recorded directly, otherwise the step is
set `Running` (and its goroutine launched; the goroutine's eventual write is
the `ExecStep.finish` transition). -/
def tickOne (w : Workflow) (t : Steper) : Workflow :=
  match w.StateOf t with
  | none => w
  | some st =>
    if st.status ≠ .Pending then w
    else
      let ups := w.UpstreamOf t
      if isAnyUpstreamNotTerminated ups then w
      else
        let cond := match st.config.condition with
          | some c => c
          | none => DefaultCondition
        let next := cond ups
        if next.IsTerminated then setStatusOf w t next
        else setStatusOf w t .Running

/-- The tick loop's fold over the selected phase bucket. -/
def tickSteps : Workflow → List Steper → Workflow
  | w, [] => w
  | w, t :: rest => tickSteps (tickOne w t) rest

/-- `func (w *Workflow) tick(ctx context.Context) bool` (src lines 388-446):
select the earliest phase not fully terminated (returning `true`, i.e. done,
when there is none) and drive every step of its bucket through `tickOne`. -/
def Workflow.tick (w : Workflow) : Workflow × Bool :=
  match WorkflowPhases.find? (fun p => ! w.IsPhaseTerminated p) with
  | none => (w, true)
  | some p => (tickSteps w (w.bucket p), false)

/-- The workflow after one tick. -/
def Workflow.tickW (w : Workflow) : Workflow := w.tick.1

/-- Modelled from the spec: `DefaultIsCanceled` (declared outside `src/`) —
whether the error wraps one of the standard cancellation sentinels. -/
def Err.isCanceledChain : Err → Bool
  | .canceled => true
  | .deadlineExceeded => true
  | .panicWrap e => e.isCanceledChain
  | .inputWrap e => e.isCanceledChain
  | _ => false

/-- `errors.Is(err, &ErrSkip{})`: the error chain contains the skip sentinel. -/
def Err.isSkipChain : Err → Bool
  | .skip => true
  | .panicWrap e => e.isSkipChain
  | .inputWrap e => e.isSkipChain
  | _ => false

/-- The error-to-status classification of the step goroutine
(src lines 430-440). -/
def classifyStepError : Option Err → StepStatus
  | none => .Succeeded
  | some e =>
    if e.isCanceledChain then .Canceled
    else if e.isSkipChain then .Skipped
    else .Failed

/-- The goroutine's terminal write (src lines 441-442): `state.SetStatus(result)`
followed by `state.SetError(err)`, through the pointer captured at launch. -/
def setStatusErrOf (w : Workflow) (s : Steper) (v : StepStatus) (e : Option Err) : Workflow :=
  match w.stateKeyOf s with
  | some k => { w with state := modifyA w.state k (fun st => { st with status := v, err := e }) }
  | none => w

/-- One atomic scheduler-visible transition of the execution loop of `Do`
(src lines 296-304): either the coordinator runs a tick, or the goroutine of a
`Running` step finishes with some error `e` (the abstract outcome of
`runStep`: user error, timeout, retry exhaustion, or nil) and records the
classified terminal status. -/
inductive ExecStep : Workflow → Workflow → Prop
  | tickStep (w : Workflow) : ExecStep w w.tickW
  | finish (w : Workflow) (s : Steper) (e : Option Err) :
      w.statusOf s = .Running →
      ExecStep w (setStatusErrOf w s (classifyStepError e) e)

/-- Reachability along the execution loop. -/
def ExecReaches : Workflow → Workflow → Prop :=
  Relation.ReflTransGen ExecStep

/-- The outcome of the entry part of `Do`: an immediate return with an
optional error, or entry into the tick loop. -/
inductive DoOutcome where
  | returned : Option WError → DoOutcome
  | looping
deriving DecidableEq

/-- `func (w *Workflow) Do(ctx context.Context) error` up to the tick loop
(src lines 276-296): the mutex try-lock, the empty-workflow early return, and
preflight.  A successful preflight enters the loop (`looping`), which is
modelled by `ExecStep`; `running := true` records the held mutex. -/
def Workflow.Do (w : Workflow) : DoOutcome × Workflow :=
  if w.running then (.returned (some .workflowIsRunning), w)
  else if w.empty then (.returned none, w)
  else
    match w.preflight with
    | (some e, w1) => (.returned (some e), w1)
    | (none, w1) => (.looping, { w1 with running := true })

/-- The outcome of running a Go computation that may panic: `Except.error`
carries the panic value (an error value or anything else, stringified on
recovery), `Except.ok` the returned `error`. -/
abbrev PResult := Except (Err ⊕ String) (Option Err)

/-- The conversion of a recovered panic value inside `catchPanicAsError`
(src lines 521-526): an `error` panic value is kept, anything else goes
through `fmt.Errorf`. -/
def panicValToError : Err ⊕ String → Err
  | .inl e => e
  | .inr s => .msg s

/-- `func catchPanicAsError(f func() error) error` (src lines 516-533): run
`f`; a panic is recovered and wrapped as `ErrPanic`. -/
def catchPanicAsError : PResult → PResult
  | .ok e => .ok e
  | .error pv => .ok (some (.panicWrap (panicValToError pv)))

/-- The inner closure of `makeDoForStep` (src lines 470-485) for a step whose
input callbacks produce `input` and whose `Do` body produces `body`: run the
input callbacks under the panic guard `d`; a non-nil result aborts with
`ErrInput`; otherwise run the body.  A panic not caught by `d` propagates. -/
def stepClosure (d : PResult → PResult) (input body : PResult) : PResult :=
  match d input with
  | .error pv => .error pv
  | .ok (some ierr) => .ok (some (.inputWrap ierr))
  | .ok none => body

/-- `func (w *Workflow) makeDoForStep(...)` (src lines 464-487): the panic
guard is `catchPanicAsError` iff `DontPanic` is set, and it wraps both the
input-callback run and the whole closure.  (The notifier hooks, which no claim
touches, are omitted.) -/
def makeDoForStep (dontPanic : Bool) (input body : PResult) : PResult :=
  let d := if dontPanic then catchPanicAsError else id
  d (stepClosure d input body)

/-! ## Infrastructure lemmas -/

theorem foldl_preserves {α β : Type} (P : β → Prop) (f : β → α → β) :
    ∀ (l : List α) (b : β), P b → (∀ b a, P b → P (f b a)) → P (l.foldl f b)
  | [], _, hb, _ => hb
  | a :: rest, b, hb, hf => foldl_preserves P f rest (f b a) (hf b a hb) hf

theorem isEmpty_congr_length {α β : Type} {l1 : List α} {l2 : List β}
    (h : l1.length = l2.length) : l1.isEmpty = l2.isEmpty := by
  cases l1 <;> cases l2 <;> simp_all

/-- The parts of a workflow the tick loop never mutates: the tree, the phase
buckets, the state-table keys (hence its size), and each state's config. -/
structure SameStatics (w w' : Workflow) : Prop where
  tree_eq : w'.tree = w.tree
  steps_eq : w'.steps = w.steps
  len_eq : w'.state.length = w.state.length
  config_eq : ∀ k, (findA w'.state k).map State.config = (findA w.state k).map State.config

theorem SameStatics.refl (w : Workflow) : SameStatics w w :=
  ⟨Eq.refl _, Eq.refl _, Eq.refl _, fun _ => Eq.refl _⟩

theorem SameStatics.trans {w1 w2 w3 : Workflow}
    (h12 : SameStatics w1 w2) (h23 : SameStatics w2 w3) : SameStatics w1 w3 :=
  ⟨h23.tree_eq.trans h12.tree_eq, h23.steps_eq.trans h12.steps_eq,
   h23.len_eq.trans h12.len_eq, fun k => (h23.config_eq k).trans (h12.config_eq k)⟩

theorem SameStatics.isSome_state_eq {w w' : Workflow} (h : SameStatics w w') (k : Steper) :
    (findA w'.state k).isSome = (findA w.state k).isSome := by
  have h1 := h.config_eq k
  cases h2 : findA w'.state k <;> cases h3 : findA w.state k <;>
    simp [h2, h3] at h1 ⊢

theorem SameStatics.empty_eq {w w' : Workflow} (h : SameStatics w w') :
    w'.empty = w.empty := by
  unfold Workflow.empty
  rw [h.tree_eq, h.steps_eq, isEmpty_congr_length h.len_eq]

theorem SameStatics.stateKeyOf_eq {w w' : Workflow} (h : SameStatics w w') (s : Steper) :
    w'.stateKeyOf s = w.stateKeyOf s := by
  unfold Workflow.stateKeyOf rootOfT
  rw [h.empty_eq, h.tree_eq]

theorem SameStatics.upstreamsOf_eq {w w' : Workflow} (h : SameStatics w w') (s : Steper) :
    upstreamsOfState (w'.StateOf s) = upstreamsOfState (w.StateOf s) := by
  unfold Workflow.StateOf
  rw [h.stateKeyOf_eq]
  cases hk : w.stateKeyOf s with
  | none => rfl
  | some k =>
    have h1 := h.config_eq k
    cases h2 : findA w'.state k <;> cases h3 : findA w.state k <;>
      simp [h2, h3, upstreamsOfState] at h1 ⊢
    rw [h1]

theorem findA_setStatusAtKey (w : Workflow) (k v j) :
    findA (setStatusAtKey w k v).state j =
      if k = j then (findA w.state j).map (fun st => { st with status := v }) else findA w.state j := by
  unfold setStatusAtKey
  exact findA_modifyA w.state k j _

theorem setStatusAtKey_statics (w : Workflow) (k : Steper) (v : StepStatus) :
    SameStatics w (setStatusAtKey w k v) := by
  refine ⟨Eq.refl _, Eq.refl _, ?_, ?_⟩
  · exact length_modifyA w.state k _
  · intro j
    rw [findA_setStatusAtKey]
    by_cases h : k = j
    · subst h
      cases findA w.state k <;> simp
    · simp [h]

theorem statusAtKey_setStatusAtKey (w : Workflow) (k v j) :
    statusAtKey (setStatusAtKey w k v) j =
      if k = j then (if (findA w.state j).isSome then v else .Pending) else statusAtKey w j := by
  unfold statusAtKey
  rw [findA_setStatusAtKey]
  by_cases h : k = j
  · subst h
    cases findA w.state k <;> simp
  · simp [h]

theorem statusOf_eq_statusAtKey (w : Workflow) (s : Steper) :
    w.statusOf s = match w.stateKeyOf s with
      | some k => statusAtKey w k
      | none => .Pending := by
  unfold Workflow.statusOf Workflow.StateOf statusAtKey
  cases w.stateKeyOf s with
  | none => rfl
  | some k => simp

/-! ### Tree climbing -/

/-- A step at which the climb halts: mapped to itself or absent. -/
def haltsAt (t : AList Steper Steper) (s : Steper) : Prop :=
  findA t s = some s ∨ findA t s = none

theorem climbs_of_haltsAt {t : AList Steper Steper} {s : Steper}
    (h : haltsAt t s) : ∀ f, climbs t f s = s := by
  intro f
  cases f with
  | zero => rfl
  | succ f =>
    rcases h with h | h <;> simp [climbs, h]

theorem climbs_stable {t : AList Steper Steper} :
    ∀ {f : Nat} {s : Steper}, haltsAt t (climbs t f s) → climbs t (f + 1) s = climbs t f s := by
  intro f
  induction f with
  | zero =>
    intro s h
    simpa [climbs] using climbs_of_haltsAt h 1
  | succ f ih =>
    intro s h
    show climbs t (f + 1 + 1) s = climbs t (f + 1) s
    cases hf : findA t s with
    | none => simp [climbs, hf]
    | some p =>
      by_cases hp : p = s
      · simp [climbs, hf, hp]
      · have h1 : climbs t (f + 1) s = climbs t f p := by simp [climbs, hf, hp]
        have h2 : climbs t (f + 1 + 1) s = climbs t (f + 1) p := by simp [climbs, hf, hp]
        rw [h1] at h
        rw [h1, h2, ih h]

theorem climbs_ge {t : AList Steper Steper} {f : Nat} {s : Steper}
    (h : haltsAt t (climbs t f s)) : ∀ g, f ≤ g → climbs t g s = climbs t f s := by
  intro g hg
  induction g with
  | zero =>
    have : f = 0 := Nat.le_zero.mp hg
    rw [this]
  | succ g ih =>
    rcases Nat.lt_or_ge f (g + 1) with hlt | hge
    · have hfg : f ≤ g := Nat.lt_succ_iff.mp hlt
      have h1 : climbs t g s = climbs t f s := ih hfg
      have h2 : haltsAt t (climbs t g s) := by rw [h1]; exact h
      rw [climbs_stable h2, h1]
    · have : f = g + 1 := Nat.le_antisymm hg hge
      rw [this]

/-- Whether the step tree is well-formed: the climb from every key reaches an
actual root (so, in particular, the tree is acyclic), and every stored parent
is itself registered.  Every tree the build API produces satisfies this. -/
def treeWF (t : AList Steper Steper) : Bool :=
  t.all (fun kv => isRootB t (climbs t t.length kv.1) && (findA t kv.2).isSome)

theorem isRootB_haltsAt {t : AList Steper Steper} {s : Steper}
    (h : isRootB t s = true) : haltsAt t s := by
  unfold isRootB at h
  exact Or.inl (by simpa using h)

theorem findA_isSome_mem_key {κ α : Type} [DecidableEq κ] {m : AList κ α} {k : κ}
    (h : (findA m k).isSome) : ∃ v, (k, v) ∈ m := by
  cases hv : findA m k with
  | none => rw [hv] at h; simp at h
  | some v => exact ⟨v, findA_some_mem hv⟩

theorem treeWF_rooted {t : AList Steper Steper} (hwf : treeWF t = true)
    {s : Steper} (hs : (findA t s).isSome) :
    isRootB t (climbs t t.length s) = true := by
  obtain ⟨v, hv⟩ := findA_isSome_mem_key hs
  have h1 := List.all_eq_true.mp hwf (s, v) hv
  simp only [Bool.and_eq_true] at h1
  exact h1.1

theorem treeWF_value_present {t : AList Steper Steper} (hwf : treeWF t = true)
    {s p : Steper} (hp : findA t s = some p) : (findA t p).isSome := by
  have h1 := List.all_eq_true.mp hwf (s, p) (findA_some_mem hp)
  simp only [Bool.and_eq_true] at h1
  exact h1.2

/-- Under a well-formed tree, climbing from a step equals climbing from its
parent: `rootOf s = rootOf (tree s)`. -/
theorem rootOfT_parent {t : AList Steper Steper} (hwf : treeWF t = true)
    {s p : Steper} (hp : findA t s = some p) (hne : p ≠ s) :
    rootOfT t s = rootOfT t p := by
  have hlen : 1 ≤ t.length := by
    cases t with
    | nil => simp [findA] at hp
    | cons a l => simp
  obtain ⟨n, hn⟩ : ∃ n, t.length = n + 1 := ⟨t.length - 1, by omega⟩
  have hshift : climbs t (n + 1) s = climbs t n p := by simp [climbs, hp, hne]
  have hroot : isRootB t (climbs t t.length s) = true :=
    treeWF_rooted hwf (by simp [hp])
  rw [hn] at hroot
  rw [hshift] at hroot
  have hhalts : haltsAt t (climbs t n p) := isRootB_haltsAt hroot
  unfold rootOfT
  rw [hn, hshift]
  exact (climbs_ge hhalts (n + 1) (Nat.le_succ n)).symm

theorem rootOfT_of_isRootB {t : AList Steper Steper} {s : Steper}
    (h : isRootB t s = true) : rootOfT t s = s :=
  climbs_of_haltsAt (isRootB_haltsAt h) t.length

/-- Under a well-formed tree, the state key a step resolves to is a root and is
the step's root. -/
theorem stateKeyOf_root {w : Workflow} (hwf : treeWF w.tree = true)
    {s k : Steper} (h : w.stateKeyOf s = some k) :
    rootOfT w.tree s = k ∧ isRootB w.tree k = true := by
  unfold Workflow.stateKeyOf at h
  by_cases he : w.empty
  · simp [he] at h
  · simp only [he, Bool.false_eq_true, if_false] at h
    cases ht : findA w.tree s with
    | none => rw [ht] at h; simp at h
    | some anc =>
      rw [ht] at h
      simp only [Option.some.injEq] at h
      by_cases ha : anc = s
      · rw [if_pos ha] at h
        have hk : s = k := by simpa using h
        subst hk
        have hr : isRootB w.tree s = true := by
          unfold isRootB
          rw [ht, ha]
          simp
        exact ⟨rootOfT_of_isRootB hr, hr⟩
      · simp [ha] at h
        have h1 : rootOfT w.tree s = rootOfT w.tree anc := rootOfT_parent hwf ht ha
        subst h
        refine ⟨h1, ?_⟩
        exact treeWF_rooted hwf (treeWF_value_present hwf ht)

/-! ### The tick loop: write characterization -/

theorem StateOf_decomp {w : Workflow} {t : Steper} {st : State}
    (hso : w.StateOf t = some st) :
    ∃ k, w.stateKeyOf t = some k ∧ findA w.state k = some st := by
  unfold Workflow.StateOf at hso
  cases hk0 : w.stateKeyOf t with
  | none => rw [hk0] at hso; simp at hso
  | some k =>
    rw [hk0] at hso
    simp at hso
    exact ⟨k, rfl, hso⟩

theorem tickOne_split (w : Workflow) (t : Steper) :
    tickOne w t = w ∨
    ∃ k st v, w.stateKeyOf t = some k ∧ findA w.state k = some st ∧
      st.status = .Pending ∧
      isAnyUpstreamNotTerminated (w.UpstreamOf t) = false ∧
      (v = .Running ∨ v.IsTerminated = true) ∧
      v ≠ .Pending ∧
      tickOne w t = setStatusAtKey w k v := by
  unfold tickOne
  cases hso : w.StateOf t with
  | none => exact Or.inl rfl
  | some st =>
    obtain ⟨k, hk, hfind⟩ := StateOf_decomp hso
    dsimp only
    by_cases hp : st.status = .Pending
    · rw [if_neg (by simp [hp])]
      by_cases hup : isAnyUpstreamNotTerminated (w.UpstreamOf t) = true
      · rw [if_pos hup]
        exact Or.inl rfl
      · rw [if_neg hup]
        have hupf : isAnyUpstreamNotTerminated (w.UpstreamOf t) = false :=
          Bool.not_eq_true _ ▸ Bool.eq_false_iff.mpr hup
        set next := (match st.config.condition with
          | some c => c
          | none => DefaultCondition) (w.UpstreamOf t) with hnext
        by_cases hterm : next.IsTerminated = true
        · rw [if_pos hterm]
          refine Or.inr ⟨k, st, next, hk, hfind, hp, hupf, Or.inr hterm, ?_, ?_⟩
          · intro hc
            rw [hc] at hterm
            exact absurd hterm (by decide)
          · unfold setStatusOf
            rw [hk]
        · rw [if_neg hterm]
          refine Or.inr ⟨k, st, .Running, hk, hfind, hp, hupf, Or.inl rfl, by decide, ?_⟩
          unfold setStatusOf
          rw [hk]
    · rw [if_pos (by simp [hp])]
      exact Or.inl rfl

theorem tickOne_statics (w : Workflow) (t : Steper) : SameStatics w (tickOne w t) := by
  rcases tickOne_split w t with h | ⟨k, st, v, _, _, _, _, _, _, h⟩
  · rw [h]; exact SameStatics.refl w
  · rw [h]; exact setStatusAtKey_statics w k v

theorem tickSteps_statics (l : List Steper) : ∀ w : Workflow, SameStatics w (tickSteps w l) := by
  induction l with
  | nil => intro w; exact SameStatics.refl w
  | cons t rest ih =>
    intro w
    exact SameStatics.trans (tickOne_statics w t) (ih (tickOne w t))

theorem tickOne_statusAtKey (w : Workflow) (t j : Steper) :
    statusAtKey (tickOne w t) j = statusAtKey w j ∨
    (statusAtKey w j = .Pending ∧
      (statusAtKey (tickOne w t) j = .Running ∨
        (statusAtKey (tickOne w t) j).IsTerminated = true)) := by
  rcases tickOne_split w t with h | ⟨k, st, v, hk, hfind, hstP, _, hv, hvne, h⟩
  · rw [h]; exact Or.inl rfl
  · rw [h, statusAtKey_setStatusAtKey]
    by_cases hkj : k = j
    · subst hkj
      rw [if_pos rfl, if_pos (by simp [hfind])]
      right
      constructor
      · unfold statusAtKey; rw [hfind]; exact hstP
      · exact hv
    · rw [if_neg hkj]; exact Or.inl rfl

theorem statusNotPending_of_runningOrTerminated {st : StepStatus}
    (h : st = .Running ∨ st.IsTerminated = true) : st ≠ .Pending := by
  intro hc
  subst hc
  rcases h with h | h
  · exact absurd h (by decide)
  · exact absurd h (by decide)

theorem tickSteps_stable (l : List Steper) :
    ∀ (w : Workflow) (j : Steper), statusAtKey w j ≠ .Pending →
      statusAtKey (tickSteps w l) j = statusAtKey w j := by
  induction l with
  | nil => intro w j _; rfl
  | cons t rest ih =>
    intro w j h
    show statusAtKey (tickSteps (tickOne w t) rest) j = statusAtKey w j
    rcases tickOne_statusAtKey w t j with heq | ⟨hP, _⟩
    · rw [ih (tickOne w t) j (heq ▸ h), heq]
    · exact absurd hP h

theorem tickSteps_change (l : List Steper) :
    ∀ (w : Workflow) (j : Steper), statusAtKey (tickSteps w l) j ≠ statusAtKey w j →
      ∃ t ∈ l, w.stateKeyOf t = some j := by
  induction l with
  | nil => intro w j h; exact absurd rfl h
  | cons t rest ih =>
    intro w j h
    by_cases heq : statusAtKey (tickOne w t) j = statusAtKey w j
    · have h2 : statusAtKey (tickSteps (tickOne w t) rest) j ≠ statusAtKey (tickOne w t) j := by
        rw [heq]; exact h
      obtain ⟨t', ht'mem, ht'⟩ := ih (tickOne w t) j h2
      refine ⟨t', List.mem_cons_of_mem _ ht'mem, ?_⟩
      rw [← (tickOne_statics w t).stateKeyOf_eq t']
      exact ht'
    · rcases tickOne_split w t with hw | ⟨k, st, v, hk, hfind, _, _, _, _, hw⟩
      · rw [hw] at heq; exact absurd rfl heq
      · rw [hw, statusAtKey_setStatusAtKey] at heq
        by_cases hkj : k = j
        · exact ⟨t, List.mem_cons_self t rest, hkj ▸ hk⟩
        · rw [if_neg hkj] at heq; exact absurd rfl heq

/-! ### UpstreamOf: valuation and key congruence -/

theorem UpstreamOf_congr (w : Workflow) (a b : Steper)
    (h : rootOfT w.tree a = rootOfT w.tree b) : w.UpstreamOf a = w.UpstreamOf b := by
  unfold Workflow.UpstreamOf
  rw [h]

theorem UpstreamOf_val (w : Workflow) (s : Steper) :
    ∀ u se, findA (w.UpstreamOf s) u = some se → se = statusErrOfState (w.StateOf u) := by
  unfold Workflow.UpstreamOf
  by_cases he : w.empty
  · simp only [he, if_true]
    intro u se h
    simp [findA] at h
  · simp only [he, Bool.false_eq_true, if_false]
    refine foldl_preserves
      (fun rv => ∀ u se, findA rv u = some se → se = statusErrOfState (w.StateOf u)) _
      WorkflowPhases [] (by intro u se h; simp [findA] at h) ?_
    intro rv p hrv
    by_cases hc : (w.bucket p).contains (rootOfT w.tree s)
    · rw [if_pos hc]
      refine foldl_preserves
        (fun rv => ∀ u se, findA rv u = some se → se = statusErrOfState (w.StateOf u)) _
        _ rv hrv ?_
      intro rv2 up hrv2 u se h
      rw [findA_insertA] at h
      by_cases hu : rootOfT w.tree up = u
      · rw [if_pos hu] at h
        cases h
        rw [hu]
      · rw [if_neg hu] at h
        exact hrv2 u se h
    · rw [if_neg hc]
      exact hrv

theorem isSome_inner_fold_congr (g : Steper → Steper) (v1 v2 : Steper → StatusError) :
    ∀ (l : List Steper) (rv1 rv2 : AList Steper StatusError),
      (∀ u, (findA rv1 u).isSome = (findA rv2 u).isSome) →
      ∀ u, (findA (l.foldl (fun rv up => insertA rv (g up) (v1 up)) rv1) u).isSome =
        (findA (l.foldl (fun rv up => insertA rv (g up) (v2 up)) rv2) u).isSome := by
  intro l
  induction l with
  | nil => intro rv1 rv2 h u; exact h u
  | cons up rest ih =>
    intro rv1 rv2 h u
    refine ih _ _ ?_ u
    intro x
    rw [findA_insertA, findA_insertA]
    by_cases hx : g up = x
    · rw [if_pos hx, if_pos hx]; rfl
    · rw [if_neg hx, if_neg hx]; exact h x

theorem isSome_UpstreamOf_congr {w w' : Workflow} (h : SameStatics w w') (s u : Steper) :
    (findA (w'.UpstreamOf s) u).isSome = (findA (w.UpstreamOf s) u).isSome := by
  unfold Workflow.UpstreamOf
  rw [h.empty_eq, h.tree_eq]
  by_cases he : w.empty
  · simp [he]
  · simp only [he, Bool.false_eq_true, if_false]
    have hb : ∀ p, w'.bucket p = w.bucket p := by
      intro p; unfold Workflow.bucket; rw [h.steps_eq]
    have hups : upstreamsOfState (w'.StateOf (rootOfT w.tree s)) =
        upstreamsOfState (w.StateOf (rootOfT w.tree s)) := h.upstreamsOf_eq _
    suffices hgen : ∀ (ps : List Phase) (rv1 rv2 : AList Steper StatusError),
        (∀ x, (findA rv1 x).isSome = (findA rv2 x).isSome) →
        ∀ x, (findA (ps.foldl (fun rv p =>
            if (w'.bucket p).contains (rootOfT w.tree s) then
              (upstreamsOfState (w'.StateOf (rootOfT w.tree s))).foldl (fun rv up =>
                insertA rv (rootOfT w.tree up)
                  (statusErrOfState (w'.StateOf (rootOfT w.tree up)))) rv
            else rv) rv1) x).isSome =
          (findA (ps.foldl (fun rv p =>
            if (w.bucket p).contains (rootOfT w.tree s) then
              (upstreamsOfState (w.StateOf (rootOfT w.tree s))).foldl (fun rv up =>
                insertA rv (rootOfT w.tree up)
                  (statusErrOfState (w.StateOf (rootOfT w.tree up)))) rv
            else rv) rv2) x).isSome by
      exact hgen WorkflowPhases [] [] (fun x => rfl) u
    intro ps
    induction ps with
    | nil => intro rv1 rv2 hx x; exact hx x
    | cons p rest ih =>
      intro rv1 rv2 hx x
      refine ih _ _ ?_ x
      intro y
      dsimp only
      rw [hb p, hups]
      by_cases hc : (w.bucket p).contains (rootOfT w.tree s)
      · rw [if_pos hc, if_pos hc]
        exact isSome_inner_fold_congr (fun up => rootOfT w.tree up)
          (fun up => statusErrOfState (w'.StateOf (rootOfT w.tree up)))
          (fun up => statusErrOfState (w.StateOf (rootOfT w.tree up)))
          _ rv1 rv2 hx y
      · rw [if_neg hc, if_neg hc]
        exact hx y

theorem guard_all_terminated {w : Workflow} {s : Steper}
    (h : isAnyUpstreamNotTerminated (w.UpstreamOf s) = false) :
    ∀ u se, findA (w.UpstreamOf s) u = some se → se.status.IsTerminated = true := by
  intro u se hf
  have hmem := findA_some_mem hf
  unfold isAnyUpstreamNotTerminated at h
  rw [List.any_eq_false] at h
  have h2 := h (u, se) hmem
  simpa using h2

/-- Workhorse for claim C1: along a tick fold, a key that turns `Running` was
`Pending`, and every upstream entry of that key in the resulting workflow is
terminal. -/
theorem tickSteps_running_guard (l : List Steper) :
    ∀ (w : Workflow) (k : Steper), treeWF w.tree = true →
      statusAtKey w k ≠ .Running →
      statusAtKey (tickSteps w l) k = .Running →
      statusAtKey w k = .Pending ∧
      ∀ u se, findA ((tickSteps w l).UpstreamOf k) u = some se →
        se.status.IsTerminated = true := by
  induction l with
  | nil =>
    intro w k _ h1 h2
    exact absurd h2 h1
  | cons t rest ih =>
    intro w k hwf h1 h2
    simp only [tickSteps] at h2 ⊢
    rcases tickOne_split w t with hw | ⟨k', st, v, hk', hfind, hstP, hguard, _, hvne, hw⟩
    · rw [hw] at h2 ⊢
      exact ih w k hwf h1 h2
    · by_cases hkk : k' = k
      · subst hkk
        have hPend : statusAtKey w k' = .Pending := by
          unfold statusAtKey; rw [hfind]; exact hstP
        refine ⟨hPend, ?_⟩
        have hw1 : statusAtKey (tickOne w t) k' = v := by
          rw [hw, statusAtKey_setStatusAtKey, if_pos rfl, if_pos (by simp [hfind])]
        obtain ⟨hroot_t, hrootB⟩ := stateKeyOf_root hwf hk'
        have hcong : w.UpstreamOf t = w.UpstreamOf k' :=
          UpstreamOf_congr w t k' (by rw [hroot_t, rootOfT_of_isRootB hrootB])
        have hterm_w : ∀ u se, findA (w.UpstreamOf k') u = some se →
            se.status.IsTerminated = true := by
          rw [← hcong]; exact guard_all_terminated hguard
        intro u se hse
        have hstat1 : SameStatics w (tickOne w t) := tickOne_statics w t
        have hstatF : SameStatics w (tickSteps (tickOne w t) rest) :=
          SameStatics.trans hstat1 (tickSteps_statics rest (tickOne w t))
        have hsomeF : (findA ((tickSteps (tickOne w t) rest).UpstreamOf k') u).isSome := by
          simp [hse]
        have hsomeW : (findA (w.UpstreamOf k') u).isSome := by
          rw [← isSome_UpstreamOf_congr hstatF k' u]; exact hsomeF
        obtain ⟨se0, hse0⟩ := Option.isSome_iff_exists.mp hsomeW
        have hterm0 : se0.status.IsTerminated = true := hterm_w u se0 hse0
        have hval0 : se0 = statusErrOfState (w.StateOf u) := UpstreamOf_val w k' u se0 hse0
        have hvalF : se = statusErrOfState ((tickSteps (tickOne w t) rest).StateOf u) :=
          UpstreamOf_val _ k' u se hse
        cases hsu : w.StateOf u with
        | none =>
          rw [hsu] at hval0
          rw [hval0] at hterm0
          simp [statusErrOfState, StepStatus.IsTerminated] at hterm0
        | some stu =>
          obtain ⟨ku, hku, hfindu⟩ := StateOf_decomp hsu
          have hsw : statusAtKey w ku = stu.status := by
            unfold statusAtKey; rw [hfindu]
          have htermw : (statusAtKey w ku).IsTerminated = true := by
            rw [hsw]
            rw [hsu] at hval0
            rw [hval0] at hterm0
            exact hterm0
          have hne : statusAtKey w ku ≠ .Pending := by
            intro hcontra
            rw [hcontra] at htermw
            exact absurd htermw (by decide)
          have h1w : statusAtKey (tickOne w t) ku = statusAtKey w ku := by
            rcases tickOne_statusAtKey w t ku with he | ⟨hP, _⟩
            · exact he
            · exact absurd hP hne
          have hfinu : statusAtKey (tickSteps (tickOne w t) rest) ku = statusAtKey w ku := by
            rw [tickSteps_stable rest (tickOne w t) ku (by rw [h1w]; exact hne), h1w]
          have hkuF : (tickSteps (tickOne w t) rest).stateKeyOf u = some ku := by
            rw [hstatF.stateKeyOf_eq]; exact hku
          have hstep : se.status = statusAtKey (tickSteps (tickOne w t) rest) ku := by
            rw [hvalF]
            unfold Workflow.StateOf
            rw [hkuF]
            unfold statusAtKey
            simp only [Option.some_bind]
            cases findA (tickSteps (tickOne w t) rest).state ku <;> simp [statusErrOfState]
          rw [hstep, hfinu]
          exact htermw
      · have heq : statusAtKey (tickOne w t) k = statusAtKey w k := by
          rw [hw, statusAtKey_setStatusAtKey, if_neg hkk]
        have hwf1 : treeWF (tickOne w t).tree = true := by
          rw [(tickOne_statics w t).tree_eq]; exact hwf
        have hres := ih (tickOne w t) k hwf1 (by rw [heq]; exact h1) h2
        exact ⟨by rw [← heq]; exact hres.1, hres.2⟩

/-- Position of a phase in the execution order (later = larger). -/
def phaseIdx : Phase → Nat
  | .PhaseInit => 0
  | .PhaseMain => 1
  | .PhaseDefer => 2
  | .PhaseUnknown => 3

/-! ### Concrete workflows used by witnesses and counterexamples -/

/-- A single independent step. -/
def wSingle : Workflow := Workflow.new.addStep .PhaseMain (.base 0) none

/-- A linear chain: step `base 1` depends on step `base 0`. -/
def wLin : Workflow :=
  (Workflow.new.addStep .PhaseMain (.base 0) none).addStep .PhaseMain (.base 1)
    (some ⟨[.base 0], none⟩)

/-- An independent step `base 0` next to the two-cycle `base 1 ↔ base 2`. -/
def wCyc : Workflow :=
  ((Workflow.new.addStep .PhaseMain (.base 0) none).addStep .PhaseMain (.base 1)
    (some ⟨[.base 2], none⟩)).addStep .PhaseMain (.base 2) (some ⟨[.base 1], none⟩)

/-- A composite step containing `base 1`, and `base 2` declared to depend on
the nested `base 1`. -/
def wNest : Workflow :=
  (Workflow.new.addStep .PhaseMain (.comp 10 [.base 1]) none).addStep .PhaseMain (.base 2)
    (some ⟨[.base 1], none⟩)

/-! ### Claim theorems -/

/-- C1: for every step scheduled by the tick loop, its status is set to
`Running` only when its current status is `Pending` and every upstream reported
by `UpstreamOf` has a terminal status; a step with a non-terminal upstream is
never launched in that tick. -/
theorem claim1_tick_runs_only_pending_with_terminated_upstreams
    (w : Workflow) (s : Steper) (hwf : treeWF w.tree = true)
    (h1 : w.statusOf s ≠ .Running) (h2 : w.tickW.statusOf s = .Running) :
    w.statusOf s = .Pending ∧
    ∀ u se, findA (w.tickW.UpstreamOf s) u = some se → se.status.IsTerminated = true := by
  unfold Workflow.tickW Workflow.tick at h2 ⊢
  cases hfp : WorkflowPhases.find? (fun p => ! w.IsPhaseTerminated p) with
  | none =>
    rw [hfp] at h2
    exact absurd h2 h1
  | some p =>
    rw [hfp] at h2
    dsimp only at h2 ⊢
    rw [statusOf_eq_statusAtKey] at h1 h2
    have hstatF : SameStatics w (tickSteps w (w.bucket p)) := tickSteps_statics _ w
    rw [hstatF.stateKeyOf_eq] at h2
    cases hk : w.stateKeyOf s with
    | none =>
      rw [hk] at h2
      simp at h2
    | some k =>
      rw [hk] at h1 h2
      obtain ⟨hP, hup⟩ := tickSteps_running_guard (w.bucket p) w k hwf h1 h2
      constructor
      · rw [statusOf_eq_statusAtKey, hk]; exact hP
      · obtain ⟨hroot_s, hrootB⟩ := stateKeyOf_root hwf hk
        have hcong : (tickSteps w (w.bucket p)).UpstreamOf s =
            (tickSteps w (w.bucket p)).UpstreamOf k := by
          apply UpstreamOf_congr
          rw [hstatF.tree_eq, hroot_s, rootOfT_of_isRootB hrootB]
        rw [hcong]
        exact hup

/-- Witness for C1: in the linear workflow, the tick sets the source step
`Running` and the theorem applies to it. -/
theorem claim1_witness : wLin.statusOf (.base 0) = .Pending :=
  (claim1_tick_runs_only_pending_with_terminated_upstreams wLin (.base 0)
    (by decide) (by decide) (by decide)).1

/-- C2: a tick changes a step's status only if the tick selected the earliest
not-yet-terminated phase, the changed step's state entry is dispatched from
that phase's bucket, and every earlier phase is fully terminated. -/
theorem claim2_tick_dispatches_only_earliest_unfinished_phase
    (w : Workflow) (s : Steper) (h : w.tickW.statusOf s ≠ w.statusOf s) :
    ∃ p, WorkflowPhases.find? (fun q => ! w.IsPhaseTerminated q) = some p ∧
      (∃ t ∈ w.bucket p, w.stateKeyOf t = w.stateKeyOf s) ∧
      ∀ q, phaseIdx q < phaseIdx p → w.IsPhaseTerminated q = true := by
  unfold Workflow.tickW Workflow.tick at h
  cases hfp : WorkflowPhases.find? (fun q => ! w.IsPhaseTerminated q) with
  | none => rw [hfp] at h; exact absurd rfl h
  | some p =>
    rw [hfp] at h
    dsimp only at h
    refine ⟨p, rfl, ?_, ?_⟩
    · rw [statusOf_eq_statusAtKey, statusOf_eq_statusAtKey,
        (tickSteps_statics (w.bucket p) w).stateKeyOf_eq] at h
      cases hk : w.stateKeyOf s with
      | none => rw [hk] at h; exact absurd rfl h
      | some k =>
        rw [hk] at h
        obtain ⟨t, htmem, htk⟩ := tickSteps_change (w.bucket p) w k h
        exact ⟨t, htmem, htk⟩
    · by_cases hI : w.IsPhaseTerminated .PhaseInit
      · by_cases hM : w.IsPhaseTerminated .PhaseMain
        · by_cases hD : w.IsPhaseTerminated .PhaseDefer
          · exfalso
            simp [WorkflowPhases, List.find?, hI, hM, hD] at hfp
          · have hp : p = .PhaseDefer := by
              simp [WorkflowPhases, List.find?, hI, hM, hD] at hfp
              exact hfp.symm
            subst hp
            intro q hq
            cases q with
            | PhaseUnknown => simp [phaseIdx] at hq
            | PhaseInit => exact hI
            | PhaseMain => exact hM
            | PhaseDefer => simp [phaseIdx] at hq
        · have hp : p = .PhaseMain := by
            simp [WorkflowPhases, List.find?, hI, hM] at hfp
            exact hfp.symm
          subst hp
          intro q hq
          cases q with
          | PhaseUnknown => simp [phaseIdx] at hq
          | PhaseInit => exact hI
          | PhaseMain => simp [phaseIdx] at hq
          | PhaseDefer => simp [phaseIdx] at hq
      · have hp : p = .PhaseInit := by
          simp [WorkflowPhases, List.find?, hI] at hfp
          exact hfp.symm
        subst hp
        intro q hq
        cases q <;> simp [phaseIdx] at hq

/-- Witness for C2: the tick on the linear workflow changes the source step's
status, and the dispatch came from phase `Main` with no earlier phase pending. -/
theorem claim2_witness :
    ∃ p, WorkflowPhases.find? (fun q => ! wLin.IsPhaseTerminated q) = some p ∧
      (∃ t ∈ wLin.bucket p, wLin.stateKeyOf t = wLin.stateKeyOf (.base 0)) ∧
      ∀ q, phaseIdx q < phaseIdx p → wLin.IsPhaseTerminated q = true :=
  claim2_tick_dispatches_only_earliest_unfinished_phase wLin (.base 0) (by decide)

/-! ### More tick write lemmas (for the execution relation) -/

theorem tickSteps_statusAtKey (l : List Steper) :
    ∀ (w : Workflow) (j : Steper),
      statusAtKey (tickSteps w l) j = statusAtKey w j ∨
      (statusAtKey w j = .Pending ∧
        (statusAtKey (tickSteps w l) j = .Running ∨
          (statusAtKey (tickSteps w l) j).IsTerminated = true)) := by
  induction l with
  | nil => intro w j; exact Or.inl rfl
  | cons t rest ih =>
    intro w j
    simp only [tickSteps]
    rcases tickOne_statusAtKey w t j with heq | ⟨hP, hnew⟩
    · rcases ih (tickOne w t) j with heq2 | ⟨hP2, hnew2⟩
      · exact Or.inl (heq2.trans heq)
      · exact Or.inr ⟨heq ▸ hP2, hnew2⟩
    · have hstab : statusAtKey (tickSteps (tickOne w t) rest) j = statusAtKey (tickOne w t) j :=
        tickSteps_stable rest (tickOne w t) j (statusNotPending_of_runningOrTerminated hnew)
      refine Or.inr ⟨hP, ?_⟩
      rw [hstab]
      exact hnew

theorem tickW_statusAtKey (w : Workflow) (j : Steper) :
    statusAtKey w.tickW j = statusAtKey w j ∨
    (statusAtKey w j = .Pending ∧
      (statusAtKey w.tickW j = .Running ∨ (statusAtKey w.tickW j).IsTerminated = true)) := by
  unfold Workflow.tickW Workflow.tick
  cases WorkflowPhases.find? (fun p => ! w.IsPhaseTerminated p) with
  | none => exact Or.inl rfl
  | some p => exact tickSteps_statusAtKey (w.bucket p) w j

theorem tickW_statics (w : Workflow) : SameStatics w w.tickW := by
  unfold Workflow.tickW Workflow.tick
  cases WorkflowPhases.find? (fun p => ! w.IsPhaseTerminated p) with
  | none => exact SameStatics.refl w
  | some p => exact tickSteps_statics (w.bucket p) w

theorem findA_setStatusErrOf (w : Workflow) (s : Steper) (v : StepStatus) (e : Option Err)
    {k : Steper} (hk : w.stateKeyOf s = some k) (j : Steper) :
    findA (setStatusErrOf w s v e).state j =
      if k = j then (findA w.state j).map (fun st => { st with status := v, err := e })
      else findA w.state j := by
  unfold setStatusErrOf
  rw [hk]
  exact findA_modifyA w.state k j _

theorem setStatusErrOf_statics (w : Workflow) (s : Steper) (v : StepStatus) (e : Option Err) :
    SameStatics w (setStatusErrOf w s v e) := by
  unfold setStatusErrOf
  cases hk : w.stateKeyOf s with
  | none => exact SameStatics.refl w
  | some k =>
    refine ⟨Eq.refl _, Eq.refl _, length_modifyA _ _ _, ?_⟩
    intro j
    rw [findA_modifyA]
    by_cases h : k = j
    · subst h
      cases findA w.state k <;> simp
    · simp [h]

theorem classifyStepError_terminated (e : Option Err) :
    (classifyStepError e).IsTerminated = true := by
  cases e with
  | none => decide
  | some e =>
    unfold classifyStepError
    dsimp only
    by_cases h1 : e.isCanceledChain = true
    · rw [if_pos h1]; decide
    · rw [if_neg h1]
      by_cases h2 : e.isSkipChain = true
      · rw [if_pos h2]; decide
      · rw [if_neg h2]; decide

theorem execStep_statusAtKey {w w' : Workflow} (h : ExecStep w w') (j : Steper) :
    statusAtKey w' j = statusAtKey w j ∨
    (statusAtKey w j = .Pending ∧
      (statusAtKey w' j = .Running ∨ (statusAtKey w' j).IsTerminated = true)) ∨
    (statusAtKey w j = .Running ∧ (statusAtKey w' j).IsTerminated = true) := by
  cases h with
  | tickStep =>
    rcases tickW_statusAtKey w j with h | h
    · exact Or.inl h
    · exact Or.inr (Or.inl h)
  | finish s e hrun =>
    rw [statusOf_eq_statusAtKey] at hrun
    cases hk : w.stateKeyOf s with
    | none =>
      rw [hk] at hrun
      dsimp only at hrun
      exact absurd hrun (by decide)
    | some k =>
      rw [hk] at hrun
      dsimp only at hrun
      by_cases hkj : k = j
      · subst hkj
        right; right
        refine ⟨hrun, ?_⟩
        obtain ⟨st, hst⟩ : ∃ st, findA w.state k = some st := by
          unfold statusAtKey at hrun
          cases hf : findA w.state k with
          | none =>
            rw [hf] at hrun
            dsimp only at hrun
            exact absurd hrun (by decide)
          | some st => exact ⟨st, rfl⟩
        unfold statusAtKey
        rw [findA_setStatusErrOf w s _ e hk, if_pos rfl, hst]
        dsimp only [Option.map]
        exact classifyStepError_terminated e
      · left
        unfold statusAtKey
        rw [findA_setStatusErrOf w s _ e hk, if_neg hkj]

theorem execStep_statics {w w' : Workflow} (h : ExecStep w w') : SameStatics w w' := by
  cases h with
  | tickStep => exact tickW_statics w
  | finish s e hrun => exact setStatusErrOf_statics w s _ e

/-- Rank of a status along the lifecycle chain (`Pending → Running → terminal`);
the internal preflight marker shares the lowest rank. -/
def statusRank : StepStatus → Nat
  | .Pending => 0
  | .scanned => 0
  | .Running => 1
  | _ => 2

theorem statusRank_terminated {st : StepStatus} (h : st.IsTerminated = true) :
    statusRank st = 2 := by
  cases st <;> first | rfl | exact absurd h (by decide)

theorem execStep_statusOf {w w' : Workflow} (h : ExecStep w w') (s : Steper) :
    w'.statusOf s = w.statusOf s ∨
    (w.statusOf s = .Pending ∧
      (w'.statusOf s = .Running ∨ (w'.statusOf s).IsTerminated = true)) ∨
    (w.statusOf s = .Running ∧ (w'.statusOf s).IsTerminated = true) := by
  rw [statusOf_eq_statusAtKey, statusOf_eq_statusAtKey, (execStep_statics h).stateKeyOf_eq]
  cases w.stateKeyOf s with
  | none => exact Or.inl rfl
  | some k => exact execStep_statusAtKey h k

theorem execReaches_status {w w' : Workflow} (h : ExecReaches w w') (s : Steper) :
    statusRank (w.statusOf s) ≤ statusRank (w'.statusOf s) ∧
    ((w.statusOf s).IsTerminated = true → w'.statusOf s = w.statusOf s) := by
  unfold ExecReaches at h
  induction h with
  | refl => exact ⟨Nat.le_refl _, fun _ => rfl⟩
  | tail hr hstep ih =>
    rename_i wmid wfin
    constructor
    · refine Nat.le_trans ih.1 ?_
      rcases execStep_statusOf hstep s with he | ⟨hP, hn⟩ | ⟨hR, hT⟩
      · rw [he]
      · rw [hP]
        rcases hn with hn | hn
        · rw [hn]; decide
        · rw [statusRank_terminated hn]; decide
      · rw [hR, statusRank_terminated hT]
        decide
    · intro hT
      have hmid : wmid.statusOf s = w.statusOf s := ih.2 hT
      have hTmid : (wmid.statusOf s).IsTerminated = true := by rw [hmid]; exact hT
      rcases execStep_statusOf hstep s with he | ⟨hP, _⟩ | ⟨hR, _⟩
      · rw [he, hmid]
      · rw [hP] at hTmid; exact absurd hTmid (by decide)
      · rw [hR] at hTmid; exact absurd hTmid (by decide)

/-! ### Preflight lemmas -/

theorem scanPass_statics : ∀ (l : List Steper) (w : Workflow), SameStatics w (scanPass w l).1 := by
  intro l
  induction l with
  | nil => intro w; exact SameStatics.refl w
  | cons k rest ih =>
    intro w
    simp only [scanPass]
    cases hf : findA w.state k with
    | none => exact ih w
    | some st =>
      dsimp only
      by_cases h1 : st.status = .scanned
      · rw [if_pos h1]; exact ih w
      · rw [if_neg h1]
        by_cases h2 : isAllUpstreamScanned (w.UpstreamOf k) = true
        · rw [if_pos h2]
          dsimp only
          exact SameStatics.trans (setStatusAtKey_statics w k .scanned) (ih _)
        · rw [if_neg h2]; exact ih w

theorem scanPass_status : ∀ (l : List Steper) (w : Workflow) (j : Steper),
    statusAtKey (scanPass w l).1 j = statusAtKey w j ∨
    statusAtKey (scanPass w l).1 j = .scanned := by
  intro l
  induction l with
  | nil => intro w j; exact Or.inl rfl
  | cons k rest ih =>
    intro w j
    simp only [scanPass]
    cases hf : findA w.state k with
    | none => exact ih w j
    | some st =>
      dsimp only
      by_cases h1 : st.status = .scanned
      · rw [if_pos h1]; exact ih w j
      · rw [if_neg h1]
        by_cases h2 : isAllUpstreamScanned (w.UpstreamOf k) = true
        · rw [if_pos h2]
          dsimp only
          rcases ih (setStatusAtKey w k .scanned) j with heq | hsc
          · rw [heq, statusAtKey_setStatusAtKey]
            by_cases hkj : k = j
            · subst hkj
              rw [if_pos rfl, if_pos (by simp [hf])]
              exact Or.inr rfl
            · rw [if_neg hkj]
              exact Or.inl rfl
          · exact Or.inr hsc
        · rw [if_neg h2]; exact ih w j

theorem scanLoop_statics : ∀ (f : Nat) (w : Workflow), SameStatics w (scanLoop f w) := by
  intro f
  induction f with
  | zero => intro w; exact SameStatics.refl w
  | succ f ih =>
    intro w
    simp only [scanLoop]
    by_cases h : (scanPass w (w.state.map (fun kv => kv.1))).2
    · rw [if_pos h]
      exact SameStatics.trans (scanPass_statics _ w) (ih _)
    · rw [if_neg h]
      exact scanPass_statics _ w

theorem scanLoop_status : ∀ (f : Nat) (w : Workflow) (j : Steper),
    statusAtKey (scanLoop f w) j = statusAtKey w j ∨
    statusAtKey (scanLoop f w) j = .scanned := by
  intro f
  induction f with
  | zero => intro w j; exact Or.inl rfl
  | succ f ih =>
    intro w j
    simp only [scanLoop]
    by_cases h : (scanPass w (w.state.map (fun kv => kv.1))).2
    · rw [if_pos h]
      rcases ih (scanPass w (w.state.map (fun kv => kv.1))).1 j with heq | hsc
      · rw [heq]
        exact scanPass_status _ w j
      · exact Or.inr hsc
    · rw [if_neg h]
      exact scanPass_status _ w j

theorem findA_map_entry {κ α β : Type} [DecidableEq κ] (l : AList κ α) (g : κ × α → β) (j : κ) :
    findA (l.map (fun kv => (kv.1, g kv))) j = (findA l j).map (fun v => g (j, v)) := by
  induction l with
  | nil => rfl
  | cons hd tl ih =>
    obtain ⟨k, v⟩ := hd
    by_cases h : k = j
    · subst h
      simp [findA]
    · simp [findA, h, ih]

theorem findA_reset_aux (j : Steper) : ∀ l : AList Steper State,
    (match findA (l.map (fun kv =>
        (kv.1, ({ status := StepStatus.Pending, err := kv.2.err,
                  config := kv.2.config } : State)))) j with
      | some st => st.status
      | none => StepStatus.Pending) = StepStatus.Pending := by
  intro l
  induction l with
  | nil => rfl
  | cons hd tl ih =>
    by_cases h : hd.1 = j
    · simp [findA, h]
    · simp only [List.map_cons, findA, h, if_false]
      exact ih

theorem resetPending_status (w : Workflow) (j : Steper) :
    statusAtKey (resetPending w) j = .Pending := by
  unfold resetPending statusAtKey
  dsimp only
  exact findA_reset_aux j w.state

theorem pendingOffenders_nil_iff (w : Workflow) :
    pendingOffenders w = [] ↔ ∀ kv ∈ w.state, kv.2.status = .Pending := by
  unfold pendingOffenders
  induction w.state with
  | nil => simp
  | cons hd tl ih =>
    simp only [List.foldr_cons]
    by_cases h : hd.2.status = .Pending
    · rw [if_neg (by simp [h])]
      rw [ih]
      constructor
      · intro hall kv hkv
        rcases List.mem_cons.mp hkv with he | hm
        · rw [he]; exact h
        · exact hall kv hm
      · intro hall kv hkv
        exact hall kv (List.mem_cons_of_mem _ hkv)
    · rw [if_pos (by simp [h])]
      constructor
      · intro hc; exact absurd hc (List.cons_ne_nil _ _)
      · intro hall
        exact absurd (hall hd (List.mem_cons_self _ _)) h

theorem allPending_statusAtKey {w : Workflow}
    (h : ∀ kv ∈ w.state, kv.2.status = .Pending) (j : Steper) :
    statusAtKey w j = .Pending := by
  unfold statusAtKey
  cases hf : findA w.state j with
  | none => rfl
  | some st => exact h (j, st) (findA_some_mem hf)

/-- Every status write of `preflight`: either untouched, or a `Pending` status
that ends `Pending` or carries the internal `scanned` marker. -/
theorem preflight_status (w : Workflow) (j : Steper) :
    statusAtKey (w.preflight).2 j = statusAtKey w j ∨
    (statusAtKey w j = .Pending ∧
      (statusAtKey (w.preflight).2 j = .Pending ∨
        statusAtKey (w.preflight).2 j = .scanned)) := by
  unfold Workflow.preflight
  by_cases hoff : pendingOffenders w ≠ []
  · rw [if_pos hoff]
    exact Or.inl rfl
  · rw [if_neg hoff]
    push_neg at hoff
    have hall := (pendingOffenders_nil_iff w).mp hoff
    have hpend : ∀ x, statusAtKey w x = .Pending := allPending_statusAtKey hall
    dsimp only
    by_cases hcyc : cycleEntries (scanLoop (w.state.length + 1) w) ≠ []
    · rw [if_pos hcyc]
      right
      refine ⟨hpend j, ?_⟩
      rcases scanLoop_status (w.state.length + 1) w j with he | hs
      · rw [he]; exact Or.inl (hpend j)
      · exact Or.inr hs
    · rw [if_neg hcyc]
      right
      exact ⟨hpend j, Or.inl (resetPending_status _ j)⟩

/-- Whether an optional workflow error is the "unexpected init status" error. -/
def isUnexpectInit : Option WError → Bool
  | some (.unexpectInit _) => true
  | _ => false

/-- Whether an optional workflow error is the cycle-dependency error. -/
def isCycleDep : Option WError → Bool
  | some (.cycleDep _) => true
  | _ => false

/-! ### Cycle detection refuses cycles (claim C3) -/

/-- A witness that the root-level upstream relation has a cycle: a nonempty
set of registered root steps each of which has an upstream (as reported by
`UpstreamOf`) inside the set. -/
def CycleSet (w : Workflow) (S : List Steper) : Prop :=
  S ≠ [] ∧ ∀ s ∈ S, isRootB w.tree s = true ∧ (findA w.state s).isSome = true ∧
    ∃ u ∈ S, (findA (w.UpstreamOf s) u).isSome = true

theorem CycleSet.transfer {w w' : Workflow} {S : List Steper}
    (h : SameStatics w w') (hS : CycleSet w S) : CycleSet w' S := by
  refine ⟨hS.1, ?_⟩
  intro s hs
  obtain ⟨h1, h2, u, hu, h3⟩ := hS.2 s hs
  refine ⟨by unfold isRootB; rw [h.tree_eq]; exact h1,
    by rw [h.isSome_state_eq]; exact h2, u, hu, ?_⟩
  rw [isSome_UpstreamOf_congr h]
  exact h3

theorem upstream_entry_nonempty {w : Workflow} {s u : Steper}
    (h : (findA (w.UpstreamOf s) u).isSome = true) : w.empty = false := by
  by_cases he : w.empty = true
  · unfold Workflow.UpstreamOf at h
    rw [if_pos he] at h
    simp [findA] at h
  · exact Bool.eq_false_iff.mpr he

theorem statusErr_root (w : Workflow) (u : Steper) (hroot : isRootB w.tree u = true)
    (hne : w.empty = false) :
    (statusErrOfState (w.StateOf u)).status = statusAtKey w u := by
  have ht : findA w.tree u = some u := by simpa [isRootB] using hroot
  have hso : w.StateOf u = findA w.state u := by
    unfold Workflow.StateOf Workflow.stateKeyOf
    rw [hne, ht]
    dsimp only
    rw [if_pos rfl]
    simp
  rw [hso]
  unfold statusAtKey statusErrOfState
  cases findA w.state u <;> rfl

theorem scanPass_cycle_invariant : ∀ (l : List Steper) (w : Workflow) (S : List Steper),
    CycleSet w S → (∀ s ∈ S, statusAtKey w s ≠ .scanned) →
    ∀ s ∈ S, statusAtKey (scanPass w l).1 s ≠ .scanned := by
  intro l
  induction l with
  | nil => intro w S _ hinv; exact hinv
  | cons k rest ih =>
    intro w S hcyc hinv
    simp only [scanPass]
    cases hf : findA w.state k with
    | none => exact ih w S hcyc hinv
    | some st =>
      dsimp only
      by_cases h1 : st.status = .scanned
      · rw [if_pos h1]; exact ih w S hcyc hinv
      · rw [if_neg h1]
        by_cases h2 : isAllUpstreamScanned (w.UpstreamOf k) = true
        · rw [if_pos h2]
          dsimp only
          have hkS : k ∉ S := by
            intro hkmem
            obtain ⟨hroot, hsome, u, huS, husome⟩ := hcyc.2 k hkmem
            have hne : w.empty = false := upstream_entry_nonempty husome
            obtain ⟨se, hse⟩ := Option.isSome_iff_exists.mp husome
            have hval : se = statusErrOfState (w.StateOf u) := UpstreamOf_val w k u se hse
            obtain ⟨huroot, _⟩ := hcyc.2 u huS
            have hst : se.status = statusAtKey w u := by
              rw [hval]; exact statusErr_root w u huroot hne
            have hu_unscanned : statusAtKey w u ≠ .scanned := hinv u huS
            unfold isAllUpstreamScanned at h2
            rw [List.all_eq_true] at h2
            have h3 := h2 (u, se) (findA_some_mem hse)
            simp only [decide_eq_true_eq] at h3
            rw [hst] at h3
            exact hu_unscanned h3
          refine ih _ S (CycleSet.transfer (setStatusAtKey_statics w k .scanned) hcyc) ?_
          intro s hs
          rw [statusAtKey_setStatusAtKey]
          by_cases hkj : k = s
          · subst hkj
            exact absurd hs hkS
          · rw [if_neg hkj]
            exact hinv s hs
        · rw [if_neg h2]; exact ih w S hcyc hinv

theorem scanLoop_cycle_invariant : ∀ (f : Nat) (w : Workflow) (S : List Steper),
    CycleSet w S → (∀ s ∈ S, statusAtKey w s ≠ .scanned) →
    ∀ s ∈ S, statusAtKey (scanLoop f w) s ≠ .scanned := by
  intro f
  induction f with
  | zero => intro w S _ hinv; exact hinv
  | succ f ih =>
    intro w S hcyc hinv
    simp only [scanLoop]
    by_cases h : (scanPass w (w.state.map (fun kv => kv.1))).2
    · rw [if_pos h]
      exact ih _ S (CycleSet.transfer (scanPass_statics _ w) hcyc)
        (scanPass_cycle_invariant _ w S hcyc hinv)
    · rw [if_neg h]
      exact scanPass_cycle_invariant _ w S hcyc hinv

theorem foldr_contrib_ne_nil {α β : Type} (f : α → List β → List β)
    (hf : ∀ a acc, f a acc = acc ∨ ∃ b, f a acc = b :: acc) :
    ∀ (l : List α) (x : α), x ∈ l → (∀ acc, ∃ b, f x acc = b :: acc) →
      l.foldr f [] ≠ [] := by
  intro l
  induction l with
  | nil => intro x hx _; simp at hx
  | cons a rest ih =>
    intro x hx hcontrib
    rcases List.mem_cons.mp hx with hxa | hxr
    · subst hxa
      obtain ⟨b, hb⟩ := hcontrib (rest.foldr f [])
      show f x (rest.foldr f []) ≠ []
      rw [hb]
      exact List.cons_ne_nil b _
    · rcases hf a (rest.foldr f []) with ha | ⟨b, hb⟩
      · show f a (rest.foldr f []) ≠ []
        rw [ha]
        exact ih x hxr hcontrib
      · show f a (rest.foldr f []) ≠ []
        rw [hb]
        exact List.cons_ne_nil b _

/-- C3: a workflow whose root-level upstream relation contains a cycle is
rejected by `Do` with a nonempty `ErrCycleDependency`, and no step is ever
transitioned to `Running`. -/
theorem claim3_cycle_rejected (w : Workflow) (S : List Steper)
    (hrun : w.running = false)
    (hpend : ∀ kv ∈ w.state, kv.2.status = StepStatus.Pending)
    (hcyc : CycleSet w S) :
    (∃ m, m ≠ [] ∧ (w.Do).1 = .returned (some (.cycleDep m))) ∧
    ∀ s : Steper, (w.Do).2.statusOf s ≠ .Running := by
  have hne : w.empty = false := by
    obtain ⟨s₀, hs₀⟩ := List.exists_mem_of_ne_nil S hcyc.1
    obtain ⟨_, _, u, hu, husome⟩ := hcyc.2 s₀ hs₀
    exact upstream_entry_nonempty husome
  have hoff : pendingOffenders w = [] := (pendingOffenders_nil_iff w).mpr hpend
  have hstat1 : SameStatics w (scanLoop (w.state.length + 1) w) := scanLoop_statics _ w
  have hcyc1 : CycleSet (scanLoop (w.state.length + 1) w) S := hcyc.transfer hstat1
  have hinv : ∀ s ∈ S, statusAtKey (scanLoop (w.state.length + 1) w) s ≠ .scanned := by
    refine scanLoop_cycle_invariant _ w S hcyc ?_
    intro s hs
    rw [allPending_statusAtKey hpend s]
    decide
  have hcne : cycleEntries (scanLoop (w.state.length + 1) w) ≠ [] := by
    obtain ⟨s₀, hs₀⟩ := List.exists_mem_of_ne_nil S hcyc.1
    obtain ⟨hroot₀, hsome₀, u₀, hu₀, husome₀⟩ := hcyc1.2 s₀ hs₀
    obtain ⟨st₀, hst₀⟩ := Option.isSome_iff_exists.mp hsome₀
    have hstatus₀ : st₀.status ≠ .scanned := by
      have hthis := hinv s₀ hs₀
      unfold statusAtKey at hthis
      rw [hst₀] at hthis
      exact hthis
    obtain ⟨se₀, hse₀⟩ := Option.isSome_iff_exists.mp husome₀
    have hne1 : (scanLoop (w.state.length + 1) w).empty = false :=
      upstream_entry_nonempty husome₀
    obtain ⟨huroot₀, _⟩ := hcyc1.2 u₀ hu₀
    have hsescan : se₀.status ≠ .scanned := by
      rw [UpstreamOf_val _ s₀ u₀ se₀ hse₀, statusErr_root _ u₀ huroot₀ hne1]
      exact hinv u₀ hu₀
    have hbad : (((scanLoop (w.state.length + 1) w).UpstreamOf s₀).foldr
        (fun use acc2 => if use.2.status ≠ .scanned then use.1 :: acc2 else acc2)
        ([] : List Steper)) ≠ [] := by
      refine foldr_contrib_ne_nil _ ?_ _ (u₀, se₀) (findA_some_mem hse₀) ?_
      · intro a acc
        by_cases h : a.2.status ≠ .scanned
        · exact Or.inr ⟨a.1, by rw [if_pos h]⟩
        · exact Or.inl (by rw [if_neg h])
      · intro acc
        exact ⟨u₀, by rw [if_pos hsescan]⟩
    unfold cycleEntries
    refine foldr_contrib_ne_nil _ ?_ _ (s₀, st₀) (findA_some_mem hst₀) ?_
    · intro a acc
      dsimp only
      by_cases h1 : a.2.status = .scanned
      · exact Or.inl (by rw [if_pos h1])
      · rw [if_neg h1]
        by_cases h2 : ((scanLoop (w.state.length + 1) w).UpstreamOf a.1).foldr
            (fun use acc2 => if use.2.status ≠ .scanned then use.1 :: acc2 else acc2)
            ([] : List Steper) ≠ []
        · exact Or.inr ⟨_, by rw [if_pos h2]⟩
        · exact Or.inl (by rw [if_neg h2])
    · intro acc
      dsimp only
      rw [if_neg hstatus₀, if_pos hbad]
      exact ⟨_, rfl⟩
  have hpre : w.preflight =
      (some (.cycleDep (cycleEntries (scanLoop (w.state.length + 1) w))),
        scanLoop (w.state.length + 1) w) := by
    unfold Workflow.preflight
    rw [if_neg (by rw [hoff]; simp)]
    dsimp only
    rw [if_pos hcne]
  have hdo : w.Do =
      (.returned (some (.cycleDep (cycleEntries (scanLoop (w.state.length + 1) w)))),
        scanLoop (w.state.length + 1) w) := by
    unfold Workflow.Do
    rw [if_neg (by rw [hrun]; simp), if_neg (by rw [hne]; simp), hpre]
  rw [hdo]
  constructor
  · exact ⟨cycleEntries (scanLoop (w.state.length + 1) w), hcne, rfl⟩
  · intro s
    rw [statusOf_eq_statusAtKey]
    cases hk : (scanLoop (w.state.length + 1) w).stateKeyOf s with
    | none =>
      dsimp only
      decide
    | some k =>
      dsimp only
      rcases scanLoop_status (w.state.length + 1) w k with he | hs
      · rw [he, allPending_statusAtKey hpend k]
        decide
      · rw [hs]
        decide

/-- Witness for C3: the workflow with the two-cycle `base 1 ↔ base 2` (next to
the independent `base 0`) is rejected with a cycle error and nothing runs. -/
theorem claim3_witness :
    (∃ m, m ≠ [] ∧ (wCyc.Do).1 = .returned (some (.cycleDep m))) ∧
    ∀ s : Steper, (wCyc.Do).2.statusOf s ≠ .Running :=
  claim3_cycle_rejected wCyc [.base 1, .base 2] (by decide) (by decide)
    ⟨by decide, by decide⟩

/-- Whether a status lies on the documented lifecycle chain
`Pending → Running → {Succeeded, Failed, Canceled, Skipped}`. -/
def onLifecycleChain : StepStatus → Bool
  | .scanned => false
  | _ => true

/-- Counterexample to C4 as stated: on the cycle workflow, preflight (run
inside `Do`) moves the independent step `base 0` from `Pending` to the
internal `scanned` marker — a status outside the chain
`Pending → Running → terminal` — and `Do` even returns with that marker still
in place, so a step's status does not only advance along the chain at every
point of execution including preflight. -/
theorem claim4_counterexample :
    wCyc.statusOf (.base 0) = .Pending ∧
    (wCyc.Do).2.statusOf (.base 0) = .scanned ∧
    onLifecycleChain .scanned = false := by decide

/-- C4 (amended): outside of preflight's internal `scanned` marker the claim
holds — (1) along the execution relation (ticks and step-goroutine
completions), every step's status rank only grows along
`Pending → Running → terminal` and a terminal status is never overwritten;
(2) preflight only rewrites `Pending` statuses, and only to `Pending` or to
the internal `scanned` marker (in particular it never overwrites `Running` or
a terminal status). -/
theorem claim4_status_monotone_amended :
    (∀ w w' : Workflow, ExecReaches w w' → ∀ s : Steper,
      statusRank (w.statusOf s) ≤ statusRank (w'.statusOf s) ∧
      ((w.statusOf s).IsTerminated = true → w'.statusOf s = w.statusOf s)) ∧
    (∀ (w : Workflow) (j : Steper),
      statusAtKey (w.preflight).2 j = statusAtKey w j ∨
      (statusAtKey w j = .Pending ∧
        (statusAtKey (w.preflight).2 j = .Pending ∨
          statusAtKey (w.preflight).2 j = .scanned))) :=
  ⟨fun _ _ h s => execReaches_status h s, preflight_status⟩

/-- Witness for C4 (amended): one tick on the single-step workflow, starting
the step, only increases the rank of its status. -/
theorem claim4_witness :
    statusRank (wSingle.statusOf (.base 0)) ≤ statusRank (wSingle.tickW.statusOf (.base 0)) :=
  (claim4_status_monotone_amended.1 wSingle wSingle.tickW
    (Relation.ReflTransGen.single (ExecStep.tickStep wSingle)) (.base 0)).1

/-- Counterexample to C9 as stated: on the cycle workflow, preflight returns
the `ErrCycleDependency` error while the independent step `base 0` is left
with the internal `Scanned` marker — the marks are reset only on the success
path, which the cycle return skips. -/
theorem claim9_counterexample :
    isCycleDep (wCyc.preflight).1 = true ∧
    statusAtKey (wCyc.preflight).2 (.base 0) = .scanned := by decide

/-- C9 (amended): when preflight returns nil every state's status has been
reset to `Pending` (no `Scanned` marker remains), and when it returns the
"unexpected init status" error it has not written any status at all; but on
the `ErrCycleDependency` return the `Scanned` marks may remain (see the
counterexample), which is harmless because no step ever executes then. -/
theorem claim9_scanned_cleared_amended (w : Workflow) :
    ((w.preflight).1 = none → ∀ j, statusAtKey (w.preflight).2 j = .Pending) ∧
    (isUnexpectInit (w.preflight).1 = true → (w.preflight).2 = w) := by
  unfold Workflow.preflight
  by_cases hoff : pendingOffenders w ≠ []
  · rw [if_pos hoff]
    exact ⟨fun h => absurd h (by simp), fun _ => rfl⟩
  · rw [if_neg hoff]
    dsimp only
    by_cases hcyc : cycleEntries (scanLoop (w.state.length + 1) w) ≠ []
    · rw [if_pos hcyc]
      exact ⟨fun h => absurd h (by simp), fun h => by simp [isUnexpectInit] at h⟩
    · rw [if_neg hcyc]
      exact ⟨fun _ j => resetPending_status _ j, fun h => by simp [isUnexpectInit] at h⟩

/-- Witness for C9 (amended): on the acyclic single-step workflow preflight
returns nil and the step's status is back to `Pending`. -/
theorem claim9_witness : statusAtKey (wSingle.preflight).2 (.base 0) = .Pending :=
  (claim9_scanned_cleared_amended wSingle).1 (by decide) (.base 0)

/-- The single-step workflow while its run is in flight (mutex held). -/
def wRunning : Workflow := { wSingle with running := true }

/-- The single-step workflow after a completed run: the step terminal, the
mutex released. -/
def wDone : Workflow :=
  { wSingle with state := [(.base 0, ⟨.Succeeded, none, ⟨[], none⟩⟩)] }

/-- C5: while a run is in progress a concurrent `Do` returns
`ErrWorkflowIsRunning`; after a completed run on a non-empty workflow (every
state terminal, mutex released) every subsequent `Do` returns an error that
`errors.Is`-matches `ErrWorkflowHasRun` (surfaced as the nonempty
`ErrUnexpectStepInitStatus` listing), leaving the workflow unchanged, so every
later call does the same. -/
theorem claim5_single_shot (w : Workflow) :
    (w.running = true → (w.Do).1 = .returned (some .workflowIsRunning)) ∧
    (w.running = false → w.empty = false →
      (∀ kv ∈ w.state, kv.2.status.IsTerminated = true) →
      ∃ m, m ≠ [] ∧ (w.Do).1 = .returned (some (.unexpectInit m)) ∧
        errorIs (.unexpectInit m) .workflowHasRun = true ∧ (w.Do).2 = w) := by
  constructor
  · intro hr
    unfold Workflow.Do
    rw [if_pos hr]
  · intro hr hne hterm
    have hoffne : pendingOffenders w ≠ [] := by
      intro hnil
      have hall := (pendingOffenders_nil_iff w).mp hnil
      have hstate : w.state ≠ [] := by
        intro hs
        unfold Workflow.empty at hne
        rw [hs] at hne
        simp at hne
      obtain ⟨kv, hkv⟩ := List.exists_mem_of_ne_nil w.state hstate
      have h1 := hall kv hkv
      have h2 := hterm kv hkv
      rw [h1] at h2
      exact absurd h2 (by decide)
    have hpre : w.preflight = (some (.unexpectInit (pendingOffenders w)), w) := by
      unfold Workflow.preflight
      rw [if_pos hoffne]
    have hdo : w.Do = (.returned (some (.unexpectInit (pendingOffenders w))), w) := by
      unfold Workflow.Do
      rw [if_neg (by rw [hr]; simp), if_neg (by rw [hne]; simp), hpre]
    exact ⟨pendingOffenders w, hoffne, by rw [hdo], rfl, by rw [hdo]⟩

/-- Witness for C5: the in-flight workflow rejects a concurrent call, and the
completed one reports the has-run condition. -/
theorem claim5_witness :
    (wRunning.Do).1 = .returned (some .workflowIsRunning) ∧
    ∃ m, m ≠ [] ∧ (wDone.Do).1 = .returned (some (.unexpectInit m)) ∧
      errorIs (.unexpectInit m) .workflowHasRun = true ∧ (wDone.Do).2 = wDone :=
  ⟨(claim5_single_shot wRunning).1 (by decide),
   (claim5_single_shot wDone).2 (by decide) (by decide) (by decide)⟩

/-- C10: on an empty workflow `Do` returns nil immediately (no preflight, no
scheduling), leaves the workflow untouched, and therefore every repeated call
returns nil as well — never `ErrWorkflowHasRun` nor any other error. -/
theorem claim10_empty_do_nil (w : Workflow)
    (hempty : w.empty = true) (hrun : w.running = false) :
    (w.Do).1 = .returned none ∧ (w.Do).2 = w ∧ (((w.Do).2).Do).1 = .returned none := by
  have hdo : w.Do = (.returned none, w) := by
    unfold Workflow.Do
    rw [if_neg (by rw [hrun]; simp), if_pos hempty]
  refine ⟨by rw [hdo], by rw [hdo], ?_⟩
  rw [hdo]
  show (w.Do).1 = .returned none
  rw [hdo]

/-- Witness for C10: the freshly constructed workflow with no steps. -/
theorem claim10_witness :
    (Workflow.new.Do).1 = .returned none ∧ (Workflow.new.Do).2 = Workflow.new ∧
    (((Workflow.new.Do).2).Do).1 = .returned none :=
  claim10_empty_do_nil Workflow.new (by decide) (by decide)

/-- C6: a panic in the step body or in the input callbacks is converted into
an `ErrPanic`-wrapped error iff `DontPanic` is set (the input-callback panic is
additionally wrapped as `ErrInput` by the abort path); with `DontPanic` unset
the panic propagates unrecovered.  The recovered panic value is kept when it is
an error and stringified otherwise. -/
theorem claim6_panic_iff_dontpanic (dp : Bool) (input body : PResult) (pv : Err ⊕ String)
    (ea : Err) (str : String) :
    (input = .ok none → body = .error pv →
      makeDoForStep dp input body =
        (if dp then .ok (some (.panicWrap (panicValToError pv))) else .error pv)) ∧
    (input = .error pv →
      makeDoForStep dp input body =
        (if dp then .ok (some (.inputWrap (.panicWrap (panicValToError pv)))) else .error pv)) ∧
    panicValToError (.inl ea) = ea ∧ panicValToError (.inr str) = .msg str := by
  refine ⟨?_, ?_, rfl, rfl⟩
  · intro hi hb
    subst hi hb
    cases dp <;> rfl
  · intro hi
    subst hi
    cases dp <;> rfl

/-- Witness for C6: a non-error panic value "boom" in the step body is
recovered and stringified under `DontPanic`. -/
theorem claim6_witness :
    makeDoForStep true (.ok none) (.error (.inr "boom")) =
      .ok (some (.panicWrap (.msg "boom"))) := by
  have h := (claim6_panic_iff_dontpanic true (.ok none) (.error (.inr "boom"))
    (.inr "boom") .skip "x").1 rfl rfl
  simpa using h

/-! ### UpstreamOf and DownstreamOf as relations (claim C7) -/

theorem steper_contains_iff_mem {l : List Steper} {x : Steper} :
    l.contains x = true ↔ x ∈ l := by
  simp

/-- Generic key-membership characterization of a left fold that only inserts
entries into an association map. -/
theorem isSome_foldl_gen {γ : Type}
    (step : AList Steper StatusError → γ → AList Steper StatusError)
    (K : γ → Steper → Prop)
    (hstep : ∀ rv a x, (findA (step rv a) x).isSome = true ↔
      ((findA rv x).isSome = true ∨ K a x)) :
    ∀ (l : List γ) (rv : AList Steper StatusError) (x : Steper),
      (findA (l.foldl step rv) x).isSome = true ↔
        ((findA rv x).isSome = true ∨ ∃ a ∈ l, K a x) := by
  intro l
  induction l with
  | nil =>
    intro rv x
    simp
  | cons a rest ih =>
    intro rv x
    rw [List.foldl_cons, ih (step rv a) x, hstep rv a x]
    constructor
    · rintro ((h | h) | ⟨b, hb, hK⟩)
      · exact Or.inl h
      · exact Or.inr ⟨a, List.mem_cons_self a rest, h⟩
      · exact Or.inr ⟨b, List.mem_cons_of_mem _ hb, hK⟩
    · rintro (h | ⟨b, hb, hK⟩)
      · exact Or.inl (Or.inl h)
      · rcases List.mem_cons.mp hb with hba | hbr
        · exact Or.inl (Or.inr (hba ▸ hK))
        · exact Or.inr ⟨b, hbr, hK⟩

theorem isSome_insertA {k x : Steper} {rv : AList Steper StatusError} {v : StatusError} :
    (findA (insertA rv k v) x).isSome = true ↔ ((findA rv x).isSome = true ∨ k = x) := by
  rw [findA_insertA]
  by_cases h : k = x
  · simp [h]
  · simp [h]

/-- Key membership in `UpstreamOf`: exactly the roots of recorded upstreams,
provided the step's root sits in some phase bucket. -/
theorem UpstreamOf_isSome_iff (w : Workflow) (s u : Steper) (hne : w.empty = false) :
    (findA (w.UpstreamOf s) u).isSome = true ↔
      ∃ p ∈ WorkflowPhases, (w.bucket p).contains (rootOfT w.tree s) = true ∧
        ∃ up ∈ upstreamsOfState (w.StateOf (rootOfT w.tree s)), rootOfT w.tree up = u := by
  unfold Workflow.UpstreamOf
  rw [hne]
  rw [if_neg (by decide)]
  rw [isSome_foldl_gen _
    (fun p x => (w.bucket p).contains (rootOfT w.tree s) = true ∧
      ∃ up ∈ upstreamsOfState (w.StateOf (rootOfT w.tree s)), rootOfT w.tree up = x) ?_
    WorkflowPhases [] u]
  · simp [findA]
  · intro rv p x
    by_cases hc : (w.bucket p).contains (rootOfT w.tree s) = true
    · rw [if_pos hc]
      rw [isSome_foldl_gen _ (fun up x => rootOfT w.tree up = x) ?_ _ rv x]
      · constructor
        · rintro (h | ⟨up, hup, hx⟩)
          · exact Or.inl h
          · exact Or.inr ⟨hc, up, hup, hx⟩
        · rintro (h | ⟨_, up, hup, hx⟩)
          · exact Or.inl h
          · exact Or.inr ⟨up, hup, hx⟩
      · intro rv2 a x2
        exact isSome_insertA
    · rw [if_neg hc]
      constructor
      · intro h
        exact Or.inl h
      · rintro (h | ⟨hcc, _⟩)
        · exact h
        · exact absurd hcc hc

/-- Key membership in `DownstreamOf`: exactly the bucket members one of whose
recorded upstreams resolves to the queried step's immediate container. -/
theorem DownstreamOf_isSome_iff (w : Workflow) (u s root : Steper) (hne : w.empty = false)
    (hroot : findA w.tree u = some root) :
    (findA (w.DownstreamOf u) s).isSome = true ↔
      ∃ p ∈ WorkflowPhases, ∃ down ∈ w.bucket p,
        (∃ up ∈ upstreamsOfState (w.StateOf down), rootOfT w.tree up = root) ∧ s = down := by
  unfold Workflow.DownstreamOf
  rw [hne]
  rw [if_neg (by decide)]
  rw [hroot]
  dsimp only
  rw [isSome_foldl_gen _
    (fun p x => ∃ down ∈ w.bucket p,
      (∃ up ∈ upstreamsOfState (w.StateOf down), rootOfT w.tree up = root) ∧ x = down) ?_
    WorkflowPhases [] s]
  · simp [findA]
  · intro rv p x
    rw [isSome_foldl_gen _
      (fun down x => (∃ up ∈ upstreamsOfState (w.StateOf down), rootOfT w.tree up = root) ∧
        x = down) ?_ _ rv x]
    intro rv2 down x2
    rw [isSome_foldl_gen _
      (fun up x => rootOfT w.tree up = root ∧ x = down) ?_ _ rv2 x2]
    · constructor
      · rintro (h | ⟨up, hup, hr, hx⟩)
        · exact Or.inl h
        · exact Or.inr ⟨⟨up, hup, hr⟩, hx⟩
      · rintro (h | ⟨⟨up, hup, hr⟩, hx⟩)
        · exact Or.inl h
        · exact Or.inr ⟨up, hup, hr, hx⟩
    · intro rv3 a x3
      by_cases hr : rootOfT w.tree a = root
      · rw [if_pos hr]
        rw [isSome_insertA]
        constructor
        · rintro (h | h)
          · exact Or.inl h
          · exact Or.inr ⟨hr, h.symm⟩
        · rintro (h | ⟨_, h⟩)
          · exact Or.inl h
          · exact Or.inr h.symm
      · rw [if_neg hr]
        constructor
        · intro h
          exact Or.inl h
        · rintro (h | ⟨hrr, _⟩)
          · exact h
          · exact absurd hrr hr

theorem isRootB_of_find {t : AList Steper Steper} {s : Steper}
    (h : findA t s = some s) : isRootB t s = true := by
  unfold isRootB
  rw [h]
  simp

/-- Counterexample to C7 as stated: in the workflow where the composite
`comp 10 [base 1]` was added and `base 2` depends on the nested `base 1`, the
step `base 2` is a key of `DownstreamOf (base 1)`, but the nested `base 1` is
not a key of `UpstreamOf (base 2)` (its root `comp 10 [base 1]` is), so the
two maps are not inverse relations when one endpoint is a nested non-root
step. -/
theorem claim7_counterexample :
    (findA (wNest.DownstreamOf (.base 1)) (.base 2)).isSome = true ∧
    (findA (wNest.UpstreamOf (.base 2)) (.base 1)).isSome = false := by decide

/-- C7 (amended): for registered root steps `u` and `s`, `u` is a key of
`UpstreamOf s` iff `s` is a key of `DownstreamOf u` — the two introspection
maps are inverse relations at root granularity on roots (the claim's extension
to nested non-root endpoints fails, see the counterexample). -/
theorem claim7_updown_inverse_on_roots (w : Workflow) (u s : Steper)
    (hu : findA w.tree u = some u) (hs : findA w.tree s = some s) :
    (findA (w.UpstreamOf s) u).isSome = true ↔
      (findA (w.DownstreamOf u) s).isSome = true := by
  by_cases hne : w.empty = true
  · unfold Workflow.UpstreamOf Workflow.DownstreamOf
    rw [if_pos hne, if_pos hne]
    simp [findA]
  · have hne2 : w.empty = false := Bool.eq_false_iff.mpr hne
    have hroots : rootOfT w.tree s = s := rootOfT_of_isRootB (isRootB_of_find hs)
    rw [UpstreamOf_isSome_iff w s u hne2, DownstreamOf_isSome_iff w u s u hne2 hu, hroots]
    constructor
    · rintro ⟨p, hp, hcont, up, hup, hx⟩
      exact ⟨p, hp, s, steper_contains_iff_mem.mp hcont, ⟨up, hup, hx⟩, rfl⟩
    · rintro ⟨p, hp, down, hdown, ⟨up, hup, hx⟩, hsd⟩
      subst hsd
      exact ⟨p, hp, steper_contains_iff_mem.mpr hdown, up, hup, hx⟩

/-- Witness for C7 (amended): the two root steps of the linear workflow. -/
theorem claim7_witness :
    (findA (wLin.UpstreamOf (.base 1)) (.base 0)).isSome = true ↔
      (findA (wLin.DownstreamOf (.base 0)) (.base 1)).isSome = true :=
  claim7_updown_inverse_on_roots wLin (.base 0) (.base 1) (by decide) (by decide)

/-! ### Step-structure lemmas (for composite re-parenting, claim C8) -/

theorem weight_pos : ∀ s : Steper, 1 ≤ weight s
  | .base _ => Nat.le_refl 1
  | .comp _ _ => Nat.le_add_right 1 _

theorem weight_mem_le {c : Steper} : ∀ {l : List Steper}, c ∈ l → weight c ≤ weightList l := by
  intro l
  induction l with
  | nil => intro h; simp at h
  | cons a rest ih =>
    intro h
    rcases List.mem_cons.mp h with ha | hr
    · subst ha
      show weight c ≤ weight c + weightList rest
      exact Nat.le_add_right _ _
    · calc weight c ≤ weightList rest := ih hr
        _ ≤ weight a + weightList rest := Nat.le_add_left _ _

theorem weight_child {c : Steper} {n : Nat} {cs : List Steper} (h : c ∈ cs) :
    weight c < weight (.comp n cs) := by
  show weight c < 1 + weightList cs
  have h1 := weight_mem_le h
  omega

theorem mem_pairsList (parent : Steper) : ∀ (cs : List Steper) (x : Steper × Steper),
    x ∈ pairsList parent cs ↔ ∃ c ∈ cs, x = (c, parent) ∨ x ∈ parentPairs c := by
  intro cs
  induction cs with
  | nil => intro x; simp [pairsList]
  | cons c rest ih =>
    intro x
    simp only [pairsList]
    constructor
    · intro hx
      rcases List.mem_cons.mp hx with hx1 | hx1
      · exact ⟨c, List.mem_cons_self _ _, Or.inl hx1⟩
      · rcases List.mem_append.mp hx1 with hx2 | hx2
        · exact ⟨c, List.mem_cons_self _ _, Or.inr hx2⟩
        · obtain ⟨d, hd, hdx⟩ := (ih x).mp hx2
          exact ⟨d, List.mem_cons_of_mem _ hd, hdx⟩
    · rintro ⟨d, hd, hdx⟩
      rcases List.mem_cons.mp hd with hdc | hdr
      · subst hdc
        rcases hdx with hx | hx
        · rw [hx]; exact List.mem_cons_self _ _
        · exact List.mem_cons_of_mem _ (List.mem_append_left _ hx)
      · exact List.mem_cons_of_mem _ (List.mem_append_right _ ((ih x).mpr ⟨d, hdr, hdx⟩))

theorem mem_pd_iff {C d : Steper} :
    d ∈ properDescendants C ↔ ∃ q, (d, q) ∈ parentPairs C := by
  unfold properDescendants
  rw [List.mem_map]
  constructor
  · rintro ⟨x, hx, hxd⟩
    refine ⟨x.2, ?_⟩
    rw [← hxd]
    exact hx
  · rintro ⟨q, hq⟩
    exact ⟨(d, q), hq, rfl⟩

theorem properDesc_comp_iff {n : Nat} {cs : List Steper} {d : Steper} :
    d ∈ properDescendants (.comp n cs) ↔ ∃ c ∈ cs, d = c ∨ d ∈ properDescendants c := by
  rw [mem_pd_iff]
  constructor
  · rintro ⟨q, hq⟩
    obtain ⟨c, hc, hcx⟩ := (mem_pairsList _ cs _).mp hq
    rcases hcx with hcx | hcx
    · exact ⟨c, hc, Or.inl (congrArg Prod.fst hcx)⟩
    · exact ⟨c, hc, Or.inr (mem_pd_iff.mpr ⟨q, hcx⟩)⟩
  · rintro ⟨c, hc, hcd⟩
    rcases hcd with hcd | hcd
    · subst hcd
      exact ⟨.comp n cs, (mem_pairsList _ cs _).mpr ⟨d, hc, Or.inl rfl⟩⟩
    · obtain ⟨q, hq⟩ := mem_pd_iff.mp hcd
      exact ⟨q, (mem_pairsList _ cs _).mpr ⟨c, hc, Or.inr hq⟩⟩

theorem weight_pd_aux : ∀ (fuel : Nat) (C d : Steper), sizeOf C ≤ fuel →
    d ∈ properDescendants C → weight d < weight C := by
  intro fuel
  induction fuel with
  | zero =>
    intro C d hsz _
    cases C with
    | base n => simp at hsz
    | comp n cs => simp at hsz
  | succ fuel ih =>
    intro C d hsz hd
    cases C with
    | base n => simp [properDescendants, parentPairs] at hd
    | comp n cs =>
      rw [properDesc_comp_iff] at hd
      obtain ⟨c, hc, hdc⟩ := hd
      have hcw : weight c < weight (.comp n cs) := weight_child hc
      rcases hdc with hde | hdc
      · subst hde
        exact hcw
      · have hszc : sizeOf c ≤ fuel := by
          have h1 := List.sizeOf_lt_of_mem hc
          simp at hsz
          omega
        exact Nat.lt_trans (ih c d hszc hdc) hcw

theorem weight_pd {C d : Steper} (h : d ∈ properDescendants C) : weight d < weight C :=
  weight_pd_aux (sizeOf C) C d (Nat.le_refl _) h

theorem ne_of_properDesc {C d : Steper} (h : d ∈ properDescendants C) : d ≠ C := by
  intro he
  subst he
  exact absurd (weight_pd h) (Nat.lt_irrefl _)

theorem pp_parent_aux : ∀ (fuel : Nat) (C : Steper) (x : Steper × Steper), sizeOf C ≤ fuel →
    x ∈ parentPairs C →
    (x.2 = C ∨ x.2 ∈ properDescendants C) ∧ weight x.1 < weight x.2 := by
  intro fuel
  induction fuel with
  | zero =>
    intro C x hsz _
    cases C with
    | base n => simp at hsz
    | comp n cs => simp at hsz
  | succ fuel ih =>
    intro C x hsz hx
    cases C with
    | base n => simp [parentPairs] at hx
    | comp n cs =>
      obtain ⟨c, hc, hcx⟩ := (mem_pairsList _ cs x).mp hx
      rcases hcx with hcx | hcx
      · rw [hcx]
        exact ⟨Or.inl rfl, weight_child hc⟩
      · have hszc : sizeOf c ≤ fuel := by
          have h1 := List.sizeOf_lt_of_mem hc
          simp at hsz
          omega
        have hres := ih c x hszc hcx
        refine ⟨?_, hres.2⟩
        rcases hres.1 with h2 | h2
        · exact Or.inr (properDesc_comp_iff.mpr ⟨c, hc, Or.inl h2⟩)
        · exact Or.inr (properDesc_comp_iff.mpr ⟨c, hc, Or.inr h2⟩)

theorem pp_parent {C : Steper} {x : Steper × Steper} (hx : x ∈ parentPairs C) :
    (x.2 = C ∨ x.2 ∈ properDescendants C) ∧ weight x.1 < weight x.2 :=
  pp_parent_aux (sizeOf C) C x (Nat.le_refl _) hx

mutual

theorem pp_length : ∀ C : Steper, (parentPairs C).length + 1 = weight C
  | .base n => by simp [parentPairs, weight]
  | .comp n cs => by
    show (pairsList (.comp n cs) cs).length + 1 = 1 + weightList cs
    rw [pl_length (.comp n cs) cs]
    omega

theorem pl_length : ∀ (parent : Steper) (cs : List Steper),
    (pairsList parent cs).length = weightList cs
  | _, [] => by simp [pairsList, weightList]
  | parent, c :: rest => by
    show ((c, parent) :: (parentPairs c ++ pairsList parent rest)).length =
      weight c + weightList rest
    simp only [List.length_cons, List.length_append]
    rw [pl_length parent rest]
    have h1 := pp_length c
    omega

end

/-! ### Association-list lemmas for the re-parenting proof -/

theorem findA_eraseA {κ α : Type} [DecidableEq κ] (m : AList κ α) (k j : κ) :
    findA (eraseA m k) j = if k = j then none else findA m j := by
  induction m with
  | nil => simp [eraseA, findA]
  | cons hd tl ih =>
    obtain ⟨k', v⟩ := hd
    unfold eraseA at ih ⊢
    rw [List.filter_cons]
    by_cases h1 : k' = k
    · rw [if_neg (by simp [h1])]
      rw [ih]
      subst h1
      by_cases h2 : k' = j
      · rw [if_pos h2, if_pos h2]
      · rw [if_neg h2, if_neg h2]
        simp [findA, h2]
    · rw [if_pos (by simp [h1])]
      by_cases h2 : k' = j
      · subst h2
        have h3 : ¬ k = k' := fun he => h1 he.symm
        rw [if_neg h3]
        simp [findA]
      · simp only [findA, h2, if_false]
        exact ih

theorem findA_isSome_of_mem {κ α : Type} [DecidableEq κ] {m : AList κ α} {k : κ} {v : α}
    (h : (k, v) ∈ m) : (findA m k).isSome = true := by
  induction m with
  | nil => simp at h
  | cons hd tl ih =>
    obtain ⟨k', v'⟩ := hd
    by_cases h1 : k' = k
    · simp [findA, h1]
    · rcases List.mem_cons.mp h with he | hm
      · injection he with he1 he2
        exact absurd he1.symm h1
      · simp only [findA, h1, if_false]
        exact ih hm

theorem findA_none_of_not_mem_keys {κ α : Type} [DecidableEq κ] {m : AList κ α} {k : κ}
    (h : k ∉ m.map (fun kv => kv.1)) : findA m k = none := by
  induction m with
  | nil => rfl
  | cons hd tl ih =>
    obtain ⟨k', v'⟩ := hd
    simp only [List.map_cons, List.mem_cons] at h
    push_neg at h
    have h1 : ¬ k' = k := fun he => h.1 he.symm
    simp only [findA, h1, if_false]
    exact ih h.2

theorem findA_isSome_of_mem_keys {κ α : Type} [DecidableEq κ] {m : AList κ α} {k : κ}
    (h : k ∈ m.map (fun kv => kv.1)) : (findA m k).isSome = true := by
  obtain ⟨kv, hkv, hk⟩ := List.mem_map.mp h
  cases hf : findA m k with
  | some v => rfl
  | none =>
    rw [← hk] at hf
    have := findA_isSome_of_mem (v := kv.2) (by simpa using hkv)
    rw [hf] at this
    simp at this

/-- Left fold of insertions over a key-duplicate-free pair list: lookup prefers
the inserted pairs and falls back to the base map. -/
theorem findA_foldl_insert_nodup {κ α : Type} [DecidableEq κ] :
    ∀ (l : AList κ α) (t : AList κ α) (j : κ), (l.map (fun kv => kv.1)).Nodup →
      findA (l.foldl (fun acc kv => insertA acc kv.1 kv.2) t) j =
        (findA l j).orElse (fun _ => findA t j) := by
  intro l
  induction l with
  | nil => intro t j _; simp [findA]
  | cons hd rest ih =>
    intro t j hnd
    obtain ⟨a, b⟩ := hd
    simp only [List.map_cons, List.nodup_cons] at hnd
    rw [List.foldl_cons, ih (insertA t a b) j hnd.2]
    by_cases haj : a = j
    · subst haj
      have hnone : findA rest a = none := by
        apply findA_none_of_not_mem_keys
        exact hnd.1
      rw [hnone]
      simp [findA, findA_insertA]
    · simp only [findA, haj, if_false, findA_insertA]

theorem key_mem_modifyA {κ α : Type} [DecidableEq κ] {m : AList κ α} {k : κ} {f : α → α}
    {x : κ × α} (h : x ∈ modifyA m k f) : ∃ y ∈ m, x.1 = y.1 := by
  induction m with
  | nil => simp [modifyA] at h
  | cons hd tl ih =>
    obtain ⟨k', v⟩ := hd
    unfold modifyA at h
    by_cases h1 : k' = k
    · rw [if_pos h1] at h
      rcases List.mem_cons.mp h with he | hm
      · exact ⟨(k', v), List.mem_cons_self _ _, by rw [he]⟩
      · obtain ⟨y, hy, hxy⟩ := ih hm
        exact ⟨y, List.mem_cons_of_mem _ hy, hxy⟩
    · rw [if_neg h1] at h
      rcases List.mem_cons.mp h with he | hm
      · exact ⟨(k', v), List.mem_cons_self _ _, by rw [he]⟩
      · obtain ⟨y, hy, hxy⟩ := ih hm
        exact ⟨y, List.mem_cons_of_mem _ hy, hxy⟩

theorem mem_insertA {κ α : Type} [DecidableEq κ] {m : AList κ α} {k : κ} {v : α}
    {x : κ × α} (h : x ∈ insertA m k v) : x = (k, v) ∨ x ∈ m := by
  induction m with
  | nil => simpa [insertA] using h
  | cons hd tl ih =>
    obtain ⟨k', v'⟩ := hd
    unfold insertA at h
    by_cases h1 : k' = k
    · rw [if_pos h1] at h
      rcases List.mem_cons.mp h with he | hm
      · rw [h1] at he
        exact Or.inl he
      · exact Or.inr (List.mem_cons_of_mem _ hm)
    · rw [if_neg h1] at h
      rcases List.mem_cons.mp h with he | hm
      · exact Or.inr (he ▸ List.mem_cons_self _ _)
      · rcases ih hm with h2 | h2
        · exact Or.inl h2
        · exact Or.inr (List.mem_cons_of_mem _ h2)

theorem mem_eraseA {κ α : Type} [DecidableEq κ] {m : AList κ α} {k : κ}
    {x : κ × α} (h : x ∈ eraseA m k) : x ∈ m ∧ x.1 ≠ k := by
  unfold eraseA at h
  have h2 := List.of_mem_filter h
  exact ⟨List.mem_of_mem_filter h, by simpa using h2⟩

theorem length_ge_of_keys_present {α : Type} :
    ∀ (ks : List Steper) (m : AList Steper α), ks.Nodup →
      (∀ k ∈ ks, (findA m k).isSome = true) → ks.length ≤ m.length := by
  intro ks
  induction ks with
  | nil => intro m _ _; simp
  | cons k rest ih =>
    intro m hnd hpres
    have hk : (findA m k).isSome = true := hpres k (List.mem_cons_self _ _)
    obtain ⟨v, hv⟩ := Option.isSome_iff_exists.mp hk
    obtain ⟨m1, m2, hm⟩ := List.append_of_mem (findA_some_mem hv)
    rw [List.nodup_cons] at hnd
    have hrest : ∀ k2 ∈ rest, (findA (m1 ++ m2) k2).isSome = true := by
      intro k2 hk2
      have hne : k2 ≠ k := fun he => hnd.1 (he ▸ hk2)
      have h2 := hpres k2 (List.mem_cons_of_mem _ hk2)
      obtain ⟨v2, hv2⟩ := Option.isSome_iff_exists.mp h2
      have hmem2 := findA_some_mem hv2
      rw [hm] at hmem2
      rcases List.mem_append.mp hmem2 with h3 | h3
      · exact findA_isSome_of_mem (List.mem_append_left _ h3)
      · rcases List.mem_cons.mp h3 with h4 | h4
        · injection h4 with h5 h6
          exact absurd h5 hne
        · exact findA_isSome_of_mem (List.mem_append_right _ h4)
    have hlen := ih (m1 ++ m2) hnd.2 hrest
    rw [hm]
    simp only [List.length_append, List.length_cons] at hlen ⊢
    omega

theorem mem_listAddSet_iff {l : List Steper} {a x : Steper} :
    x ∈ listAddSet l a ↔ x ∈ l ∨ x = a := by
  unfold listAddSet
  by_cases h : l.contains a
  · rw [if_pos h]
    constructor
    · exact Or.inl
    · rintro (hx | hx)
      · exact hx
      · exact hx ▸ steper_contains_iff_mem.mp h
  · rw [if_neg h]
    simp

theorem mem_foldl_listAddSet_of_mem {x : Steper} :
    ∀ (l acc : List Steper), x ∈ acc → x ∈ l.foldl listAddSet acc := by
  intro l
  induction l with
  | nil => intro acc h; exact h
  | cons a rest ih =>
    intro acc h
    exact ih (listAddSet acc a) (mem_listAddSet_iff.mpr (Or.inl h))

theorem mem_foldl_listAddSet_of_mem_list {x : Steper} :
    ∀ (l acc : List Steper), x ∈ l → x ∈ l.foldl listAddSet acc := by
  intro l
  induction l with
  | nil => intro acc h; simp at h
  | cons a rest ih =>
    intro acc h
    rcases List.mem_cons.mp h with he | hm
    · subst he
      exact mem_foldl_listAddSet_of_mem rest _ (mem_listAddSet_iff.mpr (Or.inr rfl))
    · exact ih _ hm

/-- Whether every state-table key and every phase-bucket member is a root of
the step tree (the invariants of §3 of the spec). -/
def wfRoots (w : Workflow) : Bool :=
  w.state.all (fun kv => isRootB w.tree kv.1) &&
  w.steps.all (fun pb => pb.2.all (fun s => isRootB w.tree s))

/-- The tree produced by `treeAdd`: lookup prefers the structural parent pairs
of the added composite and falls back to the old tree extended with the new
root. -/
theorem findA_treeAdd (C : Steper) (t : AList Steper Steper)
    (hnd : (subtreeList C).Nodup) (j : Steper) :
    findA ((parentPairs C).foldl (fun acc kv => insertA acc kv.1 kv.2) (insertA t C C)) j =
      (findA (parentPairs C) j).orElse (fun _ => findA (insertA t C C) j) := by
  apply findA_foldl_insert_nodup
  have h1 : (subtreeList C).Nodup := hnd
  unfold subtreeList at h1
  rw [List.nodup_cons] at h1
  exact h1.2

theorem treeAdd_root_C (C : Steper) (t : AList Steper Steper)
    (hnd : (subtreeList C).Nodup) :
    findA ((parentPairs C).foldl (fun acc kv => insertA acc kv.1 kv.2) (insertA t C C)) C =
      some C := by
  rw [findA_treeAdd C t hnd C]
  have hCnotpd : C ∉ properDescendants C := by
    have h1 := hnd
    unfold subtreeList at h1
    rw [List.nodup_cons] at h1
    exact h1.1
  rw [findA_none_of_not_mem_keys (m := parentPairs C) hCnotpd]
  rw [findA_insertA]
  simp

theorem treeAdd_preserves_root (C : Steper) (t : AList Steper Steper)
    (hnd : (subtreeList C).Nodup) {k : Steper}
    (hk : findA t k = some k) (hkpd : k ∉ properDescendants C) (hkC : k ≠ C) :
    findA ((parentPairs C).foldl (fun acc kv => insertA acc kv.1 kv.2) (insertA t C C)) k =
      some k := by
  rw [findA_treeAdd C t hnd k]
  rw [findA_none_of_not_mem_keys (m := parentPairs C) hkpd]
  rw [findA_insertA]
  rw [if_neg (fun he => hkC he.symm)]
  simp [hk]

/-- Climbing the re-parented tree from any proper descendant of the added
composite reaches the composite. -/
theorem treeAdd_climb (C : Steper) (t : AList Steper Steper)
    (hnd : (subtreeList C).Nodup) :
    ∀ (f : Nat) (d : Steper), d ∈ properDescendants C → weight C ≤ f + weight d →
      climbs ((parentPairs C).foldl (fun acc kv => insertA acc kv.1 kv.2) (insertA t C C)) f d
        = C := by
  intro f
  induction f with
  | zero =>
    intro d hd hw
    have := weight_pd hd
    omega
  | succ f ih =>
    intro d hd hw
    have hsome : (findA (parentPairs C) d).isSome = true :=
      findA_isSome_of_mem_keys (m := parentPairs C) hd
    obtain ⟨q, hq⟩ := Option.isSome_iff_exists.mp hsome
    have hmemq : (d, q) ∈ parentPairs C := findA_some_mem hq
    have hfacts : (q = C ∨ q ∈ properDescendants C) ∧ weight d < weight q := pp_parent hmemq
    have hT : findA ((parentPairs C).foldl (fun acc kv => insertA acc kv.1 kv.2)
        (insertA t C C)) d = some q := by
      rw [findA_treeAdd C t hnd d, hq]
      rfl
    have hqd : q ≠ d := by
      intro he
      rw [he] at hfacts
      exact absurd hfacts.2 (Nat.lt_irrefl _)
    show climbs _ (f + 1) d = C
    unfold climbs
    rw [hT]
    dsimp only
    rw [if_neg hqd]
    rcases hfacts.1 with hqC | hqpd
    · rw [hqC]
      exact climbs_of_haltsAt (Or.inl (treeAdd_root_C C t hnd)) f
    · refine ih q hqpd ?_
      have := hfacts.2
      omega

theorem stateKeyOf_none_of_tree_none {w : Workflow} {s : Steper}
    (h : findA w.tree s = none) : w.stateKeyOf s = none := by
  unfold Workflow.stateKeyOf
  by_cases he : w.empty = true
  · rw [if_pos he]
  · rw [if_neg he, h]

theorem findA_map_keyfix {κ α : Type} [DecidableEq κ] (f : κ × α → κ × α)
    (hf : ∀ q, (f q).1 = q.1) : ∀ (l : AList κ α) (j : κ),
    findA (l.map f) j = (findA l j).map (fun v => (f (j, v)).2)
  | [], _ => rfl
  | (k, v) :: tl, j => by
    rw [List.map_cons, findA, findA, hf (k, v)]
    by_cases h : k = j
    · subst h
      rw [if_pos rfl, if_pos rfl]
      rfl
    · rw [if_neg h, if_neg h, findA_map_keyfix f hf tl j]

/-- C8: adding a composite step `C` to a phase after one of its internal steps
`s1` was already added individually: afterwards `RootOf s1 = C`, `s1` is
removed from every phase bucket and from the state table while `C` is a member
of the bucket of the phase it was added to (taking `s1`'s place there), `C`'s
state is the fresh state with `s1`'s previous config merged in, and every
state-table key and phase-bucket member is again a root of the step tree. -/
theorem claim8_composite_reparents (w : Workflow) (phase : Phase) (C s1 : Steper) (st1 : State)
    (hwf : wfRoots w = true)
    (hCnew : findA w.tree C = none)
    (hold : (properDescendants C).filter (fun d => isRootB w.tree d) = [s1])
    (hs1state : findA w.state s1 = some st1)
    (hnd : (subtreeList C).Nodup) :
    rootOfT (w.addStep phase C none).tree s1 = C ∧
    (∀ p, ((w.addStep phase C none).bucket p).contains s1 = false) ∧
    ((w.addStep phase C none).bucket phase).contains C = true ∧
    findA (w.addStep phase C none).state s1 = none ∧
    findA (w.addStep phase C none).state C = some (State.new.mergeConfig st1.config) ∧
    wfRoots (w.addStep phase C none) = true := by
  have hs1mem : s1 ∈ (properDescendants C).filter (fun d => isRootB w.tree d) := by
    rw [hold]
    exact List.mem_cons_self _ _
  have hs1pd : s1 ∈ properDescendants C := List.mem_of_mem_filter hs1mem
  have hs1rootB : isRootB w.tree s1 = true := by simpa using List.of_mem_filter hs1mem
  have hs1C : s1 ≠ C := ne_of_properDesc hs1pd
  have hpdnodup : (properDescendants C).Nodup := by
    have h1 := hnd
    unfold subtreeList at h1
    exact (List.nodup_cons.mp h1).2
  -- the final workflow, explicitly
  have hshape : w.addStep phase C none =
      { tree := (parentPairs C).foldl (fun acc kv => insertA acc kv.1 kv.2) (insertA w.tree C C),
        state := eraseA (modifyA (insertA w.state C State.new) C
          (fun st => st.mergeConfig st1.config)) s1,
        steps := (insertA w.steps phase (listAddSet (w.bucket phase) C)).map
          (fun pb => if pb.2.contains s1 then
            (pb.1, (listAddSet pb.2 C).filter (fun x => x ≠ s1)) else pb),
        dontPanic := w.dontPanic, running := w.running } := by
    show addStepCore w phase C = _
    unfold addStepCore
    have hso : (bucketAdd w phase C).StateOf C = none := by
      unfold Workflow.StateOf
      rw [stateKeyOf_none_of_tree_none (w := bucketAdd w phase C) (s := C) hCnew]
      rfl
    rw [if_neg (by rw [hso]; simp)]
    unfold treeAdd
    dsimp only
    rw [show (properDescendants C).filter (fun d => isRootB (bucketAdd w phase C).tree d) = [s1]
      from hold]
    show migrate _ C s1 = _
    unfold migrate
    have hfs1 : findA (insertA (bucketAdd w phase C).state C State.new) s1 = some st1 := by
      rw [findA_insertA, if_neg (fun he => hs1C he.symm)]
      exact hs1state
    rw [hfs1]
    unfold bucketsReplace bucketAdd
    rfl
  have hwfparts := hwf
  rw [show wfRoots w = (w.state.all (fun kv => isRootB w.tree kv.1) &&
    w.steps.all (fun pb => pb.2.all (fun s => isRootB w.tree s))) from rfl,
    Bool.and_eq_true] at hwfparts
  have hwfstate := List.all_eq_true.mp hwfparts.1
  have hwfsteps := List.all_eq_true.mp hwfparts.2
  -- a registered root other than s1 stays a root in the new tree
  have hkeep : ∀ m : Steper, isRootB w.tree m = true → m ≠ s1 →
      isRootB ((parentPairs C).foldl (fun acc kv => insertA acc kv.1 kv.2)
        (insertA w.tree C C)) m = true := by
    intro m hm hms1
    have hmfind : findA w.tree m = some m := by
      unfold isRootB at hm
      exact of_decide_eq_true hm
    have hmpd : m ∉ properDescendants C := by
      intro hmem
      have : m ∈ (properDescendants C).filter (fun d => isRootB w.tree d) :=
        List.mem_filter.mpr ⟨hmem, by simpa using hm⟩
      rw [hold] at this
      rcases List.mem_cons.mp this with he | he
      · exact hms1 he
      · simp at he
    have hmC : m ≠ C := by
      intro he
      rw [he, hCnew] at hmfind
      exact Option.noConfusion hmfind
    unfold isRootB
    rw [treeAdd_preserves_root C w.tree hnd hmfind hmpd hmC]
    simp
  refine ⟨?_, ?_, ?_, ?_, ?_, ?_⟩
  · -- rootOf s1 = C
    rw [hshape]
    show rootOfT ((parentPairs C).foldl (fun acc kv => insertA acc kv.1 kv.2)
      (insertA w.tree C C)) s1 = C
    unfold rootOfT
    apply treeAdd_climb C w.tree hnd _ s1 hs1pd
    -- enough fuel: the new tree holds every proper descendant
    have hpresent : ∀ k ∈ properDescendants C,
        (findA ((parentPairs C).foldl (fun acc kv => insertA acc kv.1 kv.2)
          (insertA w.tree C C)) k).isSome = true := by
      intro k hk
      rw [findA_treeAdd C w.tree hnd k]
      have := findA_isSome_of_mem_keys (m := parentPairs C) hk
      obtain ⟨v, hv⟩ := Option.isSome_iff_exists.mp this
      rw [hv]
      rfl
    have hlen := length_ge_of_keys_present (properDescendants C) _ hpdnodup hpresent
    have hlenW : (properDescendants C).length + 1 = weight C := by
      unfold properDescendants
      rw [List.length_map]
      exact pp_length C
    have hw1 := weight_pos s1
    omega
  · -- s1 in no bucket
    intro p
    rw [hshape]
    show ((findA ((insertA w.steps phase (listAddSet (w.bucket phase) C)).map
      (fun pb => if pb.2.contains s1 then
        (pb.1, (listAddSet pb.2 C).filter (fun x => x ≠ s1)) else pb)) p).getD []).contains s1
      = false
    cases hf : findA ((insertA w.steps phase (listAddSet (w.bucket phase) C)).map
      (fun pb => if pb.2.contains s1 then
        (pb.1, (listAddSet pb.2 C).filter (fun x => x ≠ s1)) else pb)) p with
    | none => rfl
    | some l1 =>
      show l1.contains s1 = false
      have hmem := findA_some_mem hf
      obtain ⟨pb0, hpb0, hpb⟩ := List.mem_map.mp hmem
      by_cases hc : pb0.2.contains s1 = true
      · rw [if_pos hc] at hpb
        have hl1 : l1 = (listAddSet pb0.2 C).filter (fun x => x ≠ s1) := (congrArg Prod.snd hpb).symm
        rw [hl1]
        by_cases hcc : ((listAddSet pb0.2 C).filter (fun x => x ≠ s1)).contains s1 = true
        · exfalso
          have hin := steper_contains_iff_mem.mp hcc
          have := List.of_mem_filter hin
          simp at this
        · exact Bool.eq_false_iff.mpr hcc
      · rw [if_neg hc] at hpb
        have hl1 : l1 = pb0.2 := (congrArg Prod.snd hpb).symm
        rw [hl1]
        exact Bool.eq_false_iff.mpr hc
  · -- C in the bucket of its phase
    rw [hshape]
    show ((findA ((insertA w.steps phase (listAddSet (w.bucket phase) C)).map
      (fun pb => if pb.2.contains s1 then
        (pb.1, (listAddSet pb.2 C).filter (fun x => x ≠ s1)) else pb)) phase).getD []).contains C
      = true
    have hfkey : ∀ q : Phase × List Steper,
        ((fun pb : Phase × List Steper => if pb.2.contains s1 then
          (pb.1, (listAddSet pb.2 C).filter (fun x => x ≠ s1)) else pb) q).1 = q.1 := by
      intro q
      dsimp only
      by_cases hc : q.2.contains s1 = true
      · rw [if_pos hc]
      · rw [if_neg hc]
    rw [findA_map_keyfix _ hfkey, findA_insertA, if_pos rfl]
    show ((if (listAddSet (w.bucket phase) C).contains s1 = true then
      (phase, (listAddSet (listAddSet (w.bucket phase) C) C).filter (fun x => x ≠ s1))
      else (phase, listAddSet (w.bucket phase) C)).2).contains C = true
    by_cases hc : (listAddSet (w.bucket phase) C).contains s1 = true
    · rw [if_pos hc]
      refine steper_contains_iff_mem.mpr (List.mem_filter.mpr ⟨?_, ?_⟩)
      · exact mem_listAddSet_iff.mpr (Or.inr rfl)
      · exact decide_eq_true (fun he => hs1C he.symm)
    · rw [if_neg hc]
      exact steper_contains_iff_mem.mpr (mem_listAddSet_iff.mpr (Or.inr rfl))
  · -- s1 gone from the state table
    rw [hshape]
    show findA (eraseA (modifyA (insertA w.state C State.new) C
      (fun st => st.mergeConfig st1.config)) s1) s1 = none
    rw [findA_eraseA, if_pos rfl]
  · -- C's state is the fresh state with s1's config merged in
    rw [hshape]
    show findA (eraseA (modifyA (insertA w.state C State.new) C
      (fun st => st.mergeConfig st1.config)) s1) C = _
    rw [findA_eraseA, if_neg hs1C, findA_modifyA, if_pos rfl, findA_insertA, if_pos rfl]
    rfl
  · -- well-formedness is preserved
    rw [hshape]
    rw [show ∀ w2 : Workflow, wfRoots w2 = (w2.state.all (fun kv => isRootB w2.tree kv.1) &&
      w2.steps.all (fun pb => pb.2.all (fun s => isRootB w2.tree s))) from fun _ => rfl,
      Bool.and_eq_true]
    constructor
    · rw [List.all_eq_true]
      intro kv hkv
      have h1 := mem_eraseA hkv
      obtain ⟨y, hy, hky⟩ := key_mem_modifyA h1.1
      rcases mem_insertA hy with he | hm
      · have : kv.1 = C := by rw [hky, he]
        rw [this]
        show isRootB _ C = true
        unfold isRootB
        rw [treeAdd_root_C C w.tree hnd]
        simp
      · have hroot := hwfstate y hm
        simp only [decide_eq_true_eq] at hroot
        have : isRootB w.tree kv.1 = true := by rw [hky]; simpa using hroot
        exact hkeep kv.1 this h1.2
    · rw [List.all_eq_true]
      intro pb hpb
      rw [List.all_eq_true]
      intro m hmm
      obtain ⟨pb0, hpb0, hpbe⟩ := List.mem_map.mp hpb
      -- membership of m in the original bucket or m = C, and m ≠ s1
      have hsrc : (m ∈ pb0.2 ∨ m = C) ∧ m ≠ s1 := by
        by_cases hc : pb0.2.contains s1 = true
        · rw [if_pos hc] at hpbe
          have : m ∈ (listAddSet pb0.2 C).filter (fun x => x ≠ s1) := by
            rw [show pb.2 = (listAddSet pb0.2 C).filter (fun x => x ≠ s1) from
              (congrArg Prod.snd hpbe).symm] at hmm
            exact hmm
          have hm1 := List.mem_of_mem_filter this
          have hm2 := List.of_mem_filter this
          refine ⟨mem_listAddSet_iff.mp hm1, by simpa using hm2⟩
        · rw [if_neg hc] at hpbe
          have hmpb0 : m ∈ pb0.2 := by
            rw [show pb.2 = pb0.2 from (congrArg Prod.snd hpbe).symm] at hmm
            exact hmm
          refine ⟨Or.inl hmpb0, ?_⟩
          intro he
          rw [he] at hmpb0
          exact absurd (steper_contains_iff_mem.mpr hmpb0) hc
      rcases hsrc.1 with hmold | hmC
      · -- m came from a pre-existing bucket
        rcases mem_insertA hpb0 with he0 | hm0
        · -- the bucket of `phase` after the add: members of the old bucket or C
          have hmL : m ∈ listAddSet (w.bucket phase) C := by
            rw [show pb0.2 = listAddSet (w.bucket phase) C from by rw [he0]] at hmold
            exact hmold
          rcases mem_listAddSet_iff.mp hmL with hmb | hmC2
          · -- member of the old bucket of `phase`
            unfold Workflow.bucket at hmb
            cases hfb : findA w.steps phase with
            | none =>
              rw [hfb] at hmb
              simp at hmb
            | some l0 =>
              rw [hfb] at hmb
              simp only [Option.getD_some] at hmb
              have hall := hwfsteps (phase, l0) (findA_some_mem hfb)
              simp only [List.all_eq_true, decide_eq_true_eq] at hall
              have := hall m hmb
              exact hkeep m (by simpa using this) hsrc.2
          · rw [hmC2]
            show isRootB _ C = true
            unfold isRootB
            rw [treeAdd_root_C C w.tree hnd]
            simp
        · have hall := hwfsteps pb0 hm0
          simp only [List.all_eq_true, decide_eq_true_eq] at hall
          have := hall m hmold
          exact hkeep m (by simpa using this) hsrc.2
      · rw [hmC]
        show isRootB _ C = true
        unfold isRootB
        rw [treeAdd_root_C C w.tree hnd]
        simp

/-- A workflow holding just the primitive step `base 1`. -/
def wS1 : Workflow := Workflow.new.addStep .PhaseMain (.base 1) none

/-- Witness for C8: adding the composite `comp 7 [base 1]` after `base 1` was
added individually re-parents `base 1` under the composite. -/
theorem claim8_witness :
    rootOfT ((wS1.addStep .PhaseMain (.comp 7 [.base 1]) none).tree) (.base 1) =
      .comp 7 [.base 1] :=
  (claim8_composite_reparents wS1 .PhaseMain (.comp 7 [.base 1]) (.base 1) State.new
    (by decide) (by decide) (by decide) rfl (by decide)).1

end GoFlow
